import Mathlib

/-!
Shallow embedding of the `go-genetics` engine (files `population.go`,
`selectionmethod.go`, `crossovermethod.go` plus the `Chromosome` /
`EvolverConfiguration` declarations).

Modelling conventions:
* Go `float64` arithmetic is modelled by exact rational arithmetic (`ℚ`);
  the claims under study are algebraic properties of the algorithms.
* Go pointers (`*Chromosome`) are modelled by indices (`Ptr := Nat`) into an
  explicit store (`Store := List Chromosome`); a `Population` is a list of
  such indices, exactly as a Go slice of pointers.  In-place mutation is
  explicit store threading.
* Every call to `math/rand` is modelled by an oracle argument supplying the
  drawn value; `rand.Intn n` is modelled as `r % n` for an arbitrary oracle
  value `r` (and a Go panic, for `n ≤ 0`, as the `none` result).
* A Go runtime panic (out-of-range index, `rand.Intn` with a nonpositive
  bound) is modelled by an `Option` result being `none`.
-/

namespace Genetics

/-- `Chromosome` from `chromosome.go`: genes, fitness and the engine-internal
selection weight. -/
structure Chromosome where
  genes : List ℚ
  fitness : ℚ
  weight : ℚ
deriving DecidableEq

instance : Inhabited Chromosome := ⟨⟨[], 0, 0⟩⟩

/-- A pointer to a chromosome: an index into the store. -/
abbrev Ptr := Nat

/-- The heap of allocated chromosomes. -/
abbrev Store := List Chromosome

/-- `Population` from `population.go`: a slice of chromosome pointers. -/
abbrev Population := List Ptr

/-- Dereference a pointer (out-of-range reads never occur on the paths the
claims exercise; the default is the zero `Chromosome`). -/
def getC (s : Store) (p : Ptr) : Chromosome := s.getD p default

/-- Store update of a single chromosome's `weight` field (Go: `c.weight = w`). -/
def setWeight (s : Store) (p : Ptr) (w : ℚ) : Store :=
  s.set p ⟨(getC s p).genes, (getC s p).fitness, w⟩

/-- `Population.SumWeights` (population.go:29-35). -/
def SumWeights (s : Store) (pop : Population) : ℚ :=
  (pop.map fun p => (getC s p).weight).sum

/-- `Population.SumFitnesses` (population.go:38-44). -/
def SumFitnesses (s : Store) (pop : Population) : ℚ :=
  (pop.map fun p => (getC s p).fitness).sum

/-- `Population.CountNegativeWeights` (population.go:48-56). -/
def CountNegativeWeights (s : Store) (pop : Population) : Nat :=
  (pop.filter fun p => (getC s p).weight < 0).length

/-- The value of Go's `math.MaxFloat64`, used as a sentinel. -/
def maxFloat64 : ℚ := (2 ^ 53 - 1) * 2 ^ 971

/-- `Population.MinWeight` (population.go:59-67): minimum weight, scanning
with a `math.MaxFloat64` sentinel. -/
def MinWeight (s : Store) (pop : Population) : ℚ :=
  pop.foldl (fun m p => if (getC s p).weight < m then (getC s p).weight else m)
    maxFloat64

/-- `Population.ShiftWeights` (population.go:71-75): **adds** `value` to every
chromosome's weight, in place. -/
def ShiftWeights (s : Store) (pop : Population) (value : ℚ) : Store :=
  pop.foldl (fun st p => setWeight st p ((getC st p).weight + value)) s

/-- The scan of `Population.ChromosomeWithMaxWeight` (population.go:85-95):
running maximum value and index, sentinel `-math.MaxFloat64`, index `0`. -/
def maxWeightIndex (s : Store) : ℚ → Nat → Nat → Population → Nat
  | _, best, _, [] => best
  | mv, best, i, p :: rest =>
    if (getC s p).weight > mv then maxWeightIndex s ((getC s p).weight) i (i + 1) rest
    else maxWeightIndex s mv best (i + 1) rest

/-- `Population.ChromosomeWithMaxWeight` (population.go:85-95); returns
`p[maxIndex]`, which panics (`none`) on an empty population. -/
def ChromosomeWithMaxWeight (s : Store) (pop : Population) : Option Ptr :=
  pop[maxWeightIndex s (-maxFloat64) 0 0 pop]?

/-- The cumulative-weight scan shared by rank and roulette selection
(`sum += c.weight; if rand < sum { return c }`). -/
def selectScan (s : Store) (draw : ℚ) : ℚ → Population → Option Ptr
  | _, [] => none
  | acc, p :: rest =>
    if draw < acc + (getC s p).weight then some p
    else selectScan s draw (acc + (getC s p).weight) rest

/-- The weight-assignment loop of `RankFunction` (selectionmethod.go:54-56):
`population[i].weight = float64(i) + 1.0`, starting at index `i`. -/
def rankAssignFrom (s : Store) (i : Nat) : Population → Store
  | [] => s
  | p :: rest => rankAssignFrom (setWeight s p ((i : ℚ) + 1)) (i + 1) rest

/-- Weight assignment of rank selection over the whole population. -/
def rankAssign (s : Store) (pop : Population) : Store := rankAssignFrom s 0 pop

/-- `RankFunction` (selectionmethod.go:53-70).  The oracle `r` models the
`rand.Intn` draw (result `r % bound`); `rand.Intn` panics (`none`) when its
bound `int(total)` is nonpositive.  The defensive fallback `&Chromosome{}`
allocates a fresh zero chromosome at the end of the store. -/
def RankFunction (r : Nat) (s : Store) (pop : Population) :
    Store × Population × Option Ptr :=
  let s1 := rankAssign s pop
  let total := SumWeights s1 pop
  if ⌊total⌋ ≤ 0 then (s1, pop, none)
  else
    let draw : ℚ := ((r % ⌊total⌋.toNat : Nat) : ℚ)
    match selectScan s1 draw 0 pop with
    | some c => (s1, pop, some c)
    | none => (s1 ++ [⟨[], 0, 0⟩], pop, some s1.length)

/-- The in-place `sort.Slice` ascending by fitness used by `Evolve`
(population.go:149-151, 157-159).  `sort.Slice` guarantees an ordering that is
nondecreasing under the `less` function; the order among equal keys is
unspecified, so any correct sort is a faithful model. -/
def sortByFitness (s : Store) (pop : Population) : Population :=
  pop.insertionSort fun a b => (getC s a).fitness ≤ (getC s b).fitness

/-- The in-place `sort.Slice` descending by fitness at the top of
`RouletteFunction` (selectionmethod.go:74-76). -/
def sortByFitnessDesc (s : Store) (pop : Population) : Population :=
  pop.insertionSort fun a b => (getC s b).fitness ≤ (getC s a).fitness

/-- The normalisation loop of `RouletteFunction` (selectionmethod.go:78-81):
`total` is computed first, then every weight is divided by it in place. -/
def rouletteNormalize (s : Store) (pop : Population) : Store :=
  let total := SumWeights s pop
  pop.foldl (fun st p => setWeight st p ((getC st p).weight / total)) s

/-- The negative-weight shift step of `RouletteFunction`
(selectionmethod.go:83-88): when any weight is negative the whole population
is shifted **by the minimum weight** (`ShiftWeights(min)` adds `min`). -/
def rouletteShift (s : Store) (pop : Population) : Store :=
  if CountNegativeWeights s pop > 0 then ShiftWeights s pop (MinWeight s pop)
  else s

/-- Lines 78-88 of `RouletteFunction`: normalisation followed by the
conditional shift, the state of the weights just before the proportional
draw. -/
def rouletteWeightPrep (s : Store) (pop : Population) : Store :=
  rouletteShift (rouletteNormalize s pop) pop

/-- `RouletteFunction` (selectionmethod.go:73-101).  `rf` is the
`rand.Float64()` oracle; the fallback is `population[0]` (a panic, `none`, on
an empty population). -/
def RouletteFunction (rf : ℚ) (s : Store) (pop : Population) :
    Store × Population × Option Ptr :=
  let popD := sortByFitnessDesc s pop
  let s2 := rouletteWeightPrep s popD
  match selectScan s2 rf 0 popD with
  | some c => (s2, popD, some c)
  | none => (s2, popD, popD.head?)

/-- The tournament group size: `rand.Intn(len(population)-1) + 1`
(selectionmethod.go:106), modelled with oracle `r`. -/
def tournamentGroupSize (n r : Nat) : Nat := r % (n - 1) + 1

/-- `TournamentFunction` (selectionmethod.go:104-109).  `shuffled` models the
outcome of the in-place `rand.Shuffle` of `Population.ShuffleChromosomes`
(population.go:78-82), whose contract is that it is a permutation of the
population.  `rand.Intn(len(population)-1)` panics (`none`) when the
population has fewer than two chromosomes. -/
def TournamentFunction (shuffled : Population) (r : Nat) (s : Store)
    (pop : Population) : Population × Option Ptr :=
  if pop.length ≤ 1 then (shuffled, none)
  else
    (shuffled,
      ChromosomeWithMaxWeight s (shuffled.take (tournamentGroupSize pop.length r)))

/-! ### Crossover (crossovermethod.go) -/

/-- Go's two-argument `copy(dst, src)`: copies `min (len dst) (len src)`
elements of `src` over the front of `dst`. -/
def copyInto (dst src : List ℚ) : List ℚ :=
  src.take dst.length ++ dst.drop (min dst.length src.length)

/-- Slice element swap `l[i], l[j] = l[j], l[i]`. -/
def swapAt (l : List Nat) (i j : Nat) : List Nat :=
  (l.set i (l.getD j 0)).set j (l.getD i 0)

/-- The partial Fisher-Yates pass of `PointFunction`
(crossovermethod.go:62-68): for `i` from `0` to `len-2`,
`j := rand.Intn(len(indexes)-i) + i` (oracle `jd`), swap unless `i == j`. -/
def scrambleIndexes (jd : Nat → Nat) (l : List Nat) : List Nat :=
  (List.range (l.length - 1)).foldl
    (fun cur i =>
      let j := jd i % (cur.length - i) + i
      if i = j then cur else swapAt cur i j) l

/-- One segment write of `PointFunction` (crossovermethod.go:82-88):
`for j := lo; j < hi; j++ { child[j] = src[j] }`; an out-of-range read of a
parent's genes is a panic (`none`). -/
def writeSeg (src : List ℚ) (lo hi : Nat) (g : List ℚ) : Option (List ℚ) :=
  (List.range' lo (hi - lo)).foldlM (fun g j => (src[j]?).map fun v => g.set j v) g

/-- The alternating segment loop of `PointFunction` (crossovermethod.go:81-89):
even-numbered brackets copy from parent A, odd ones from parent B. -/
def segmentsLoop (gA gB : List ℚ) (pts : List Nat) (g : List ℚ) :
    Option (List ℚ) :=
  (List.range (pts.length - 1)).foldlM
    (fun g i =>
      writeSeg (if i % 2 = 0 then gA else gB) (pts.getD i 0) (pts.getD (i + 1) 0) g)
    g

/-- The `if len(indexes) > 1` guard around the partial shuffle
(crossovermethod.go:61-69). -/
def pointShuffle (jd : Nat → Nat) (indexes : List Nat) : List Nat :=
  if 1 < indexes.length then scrambleIndexes jd indexes else indexes

/-- The capacity of the `indexes` slice built by appending one element at a
time to a nil slice (crossovermethod.go:56-59), under the gc runtime's
doubling growth: capacities run 0, 1, 2, 4, 4, 8, 8, 8, 8, 16, …  (The Go
spec leaves the grown capacity implementation-defined; this models the gc
runtime, where `cap` after `n` single-element appends is the least power of
two at or above `n`.) -/
def goCap : Nat → Nat
  | 0 => 0
  | n + 1 => if n + 1 ≤ goCap n then goCap n else max 1 (2 * goCap n)

/-- `PointFunction` (crossovermethod.go:55-92).  `indexes` is `[1..len(A)]`,
partially shuffled.  The slice expression `indexes[0:count]` is legal up to
`cap(indexes)` — not `len(indexes)` — and panics (`none`) only beyond the
capacity; for `len < count ≤ cap` it extends into the append-grown backing
array, whose slots past `len` are zero-filled by the allocator, so the cut
points gain `count - len` zeros.  The cut points are sorted and bracketed
with `0` and `len(A)`; the child starts as a copy of parent A's genes. -/
def PointFunction (jd : Nat → Nat) (cA cB : Chromosome) (count : Nat) :
    Option Chromosome :=
  let indexes := (List.range cA.genes.length).map (· + 1)
  let shuffled := pointShuffle jd indexes
  if count ≤ goCap cA.genes.length then
    let pts0 := shuffled.take count
      ++ List.replicate (count - cA.genes.length) 0
    let pts := pts0.insertionSort (· ≤ ·)
    let pts := ([0] ++ pts) ++ [cA.genes.length]
    (segmentsLoop cA.genes cB.genes pts cA.genes).map fun g => ⟨g, 0, 0⟩
  else none

/-- The per-gene loop of `UniformFunction` (crossovermethod.go:101-107):
`rand.Intn(2)` is the oracle `coin i % 2`; reading `cB.Genes[i]` out of range
is a panic (`none`).  The child starts as a copy of parent A's genes. -/
def uniformGenes (coin : Nat → Nat) (gA gB : List ℚ) : Option (List ℚ) :=
  (List.range gA.length).foldlM
    (fun g i =>
      if coin i % 2 = 1 then some (g.set i (gA.getD i 0))
      else (gB[i]?).map fun v => g.set i v)
    gA

/-- `UniformFunction` (crossovermethod.go:95-110); the `count` parameter of
the `CrossoverMethodFunction` signature is ignored. -/
def UniformFunction (coin : Nat → Nat) (cA cB : Chromosome) (_count : Nat) :
    Option Chromosome :=
  (uniformGenes coin cA.genes cB.genes).map fun g => ⟨g, 0, 0⟩

/-! ### Evolver (population.go, configuration) -/

/-- `EvolverConfiguration`: elitism count (Go `uint`), the two rates, and the
crossover method's point count (Go `int`; only nonnegative counts are
exercised by the engine's claims). -/
structure EvolverConfiguration where
  elitism : Nat
  crossoverRate : ℚ
  mutationRate : ℚ
  crossoverCount : Nat
deriving DecidableEq

/-- A selection method function: invocation counter (feeding its private
randomness), store and population; returns the updated store, the population
slice contents after any in-place reordering, and the selected pointer
(`none` models a panic). -/
abbrev SelFn := Nat → Store → Population → Store × Population × Option Ptr

/-- A crossover method function: invocation counter, the two parents and the
configured point count. -/
abbrev CrossFn := Nat → Chromosome → Chromosome → Nat → Option Chromosome

/-- `MutationFunction` (population.go:111). -/
abbrev MutFn := Chromosome → Nat → ℚ

/-- `FitnessFunction` (population.go:108). -/
abbrev FitFn := Chromosome → ℚ

/-- The mutation loop of `breedChild` (population.go:235-239): for each gene
position, with `rand.Float64() <= MutationRate` (oracle `mutDraw`), replace
the gene via the mutation function, which sees the partially mutated child. -/
def mutateGenes (rate : ℚ) (mutFn : MutFn) (mutDraw : Nat → ℚ) (c0 : Chromosome) :
    Chromosome :=
  (List.range c0.genes.length).foldl
    (fun c i =>
      if mutDraw i ≤ rate then ⟨c.genes.set i (mutFn c i), c.fitness, c.weight⟩
      else c)
    c0

/-- `Evolver.breedChild` (population.go:215-242).  `crossDraw` is this child's
`rand.Float64()` for `shouldCrossover`; the child's gene slice is allocated
with the gene length of `population[0]` (a panic, `none`, on an empty
population) and filled by Go `copy`; fitness and weight are copied from the
crossover result resp. the selected parent. -/
def breedChild (cfg : EvolverConfiguration) (selFn : SelFn) (crossFn : CrossFn)
    (mutFn : MutFn) (crossDraw : ℚ) (mutDraw : Nat → ℚ) (k : Nat)
    (s : Store) (pop : Population) : Store × Population × Option Ptr :=
  match pop with
  | [] => (s, pop, none)
  | p0 :: _ =>
    let base := List.replicate (getC s p0).genes.length (0 : ℚ)
    if crossDraw ≤ cfg.crossoverRate then
      let r1 := selFn (2 * k) s pop
      match r1.2.2 with
      | none => (r1.1, r1.2.1, none)
      | some p1 =>
        let r2 := selFn (2 * k + 1) r1.1 r1.2.1
        match r2.2.2 with
        | none => (r2.1, r2.2.1, none)
        | some p2 =>
          match crossFn k (getC r2.1 p1) (getC r2.1 p2) cfg.crossoverCount with
          | none => (r2.1, r2.2.1, none)
          | some chrom =>
            let child := mutateGenes cfg.mutationRate mutFn mutDraw
              ⟨copyInto base chrom.genes, chrom.fitness, chrom.weight⟩
            (r2.1 ++ [child], r2.2.1, some r2.1.length)
    else
      let r1 := selFn (2 * k) s pop
      match r1.2.2 with
      | none => (r1.1, r1.2.1, none)
      | some p1 =>
        let chrom := getC r1.1 p1
        let child := mutateGenes cfg.mutationRate mutFn mutDraw
          ⟨copyInto base chrom.genes, chrom.fitness, chrom.weight⟩
        (r1.1 ++ [child], r1.2.1, some r1.1.length)

/-- `Evolver.applyElitism` (population.go:206-212): collect
`population[len-1-i]` for `i = 0 .. Elitism-1`; the index underflows (a
panic, `none`) when the elitism count exceeds the population size. -/
def applyElitism (cfg : EvolverConfiguration) (pop : Population) :
    Option (List Ptr) :=
  if cfg.elitism ≤ pop.length then
    some ((List.range cfg.elitism).map fun i => pop.getD (pop.length - i - 1) 0)
  else none

/-- The child-breeding loop of `breedSingleGeneration` (population.go:195-199):
`n` children remain, `k` is the slot index (and randomness counter), `acc` is
the new population built so far. -/
def breedChildren (cfg : EvolverConfiguration) (selFn : SelFn) (crossFn : CrossFn)
    (mutFn : MutFn) (crossDraw : Nat → ℚ) (mutDraw : Nat → Nat → ℚ) :
    Nat → Nat → Store → Population → List Ptr →
    Option (Store × Population × List Ptr)
  | 0, _, s, pop, acc => some (s, pop, acc)
  | n + 1, k, s, pop, acc =>
    match breedChild cfg selFn crossFn mutFn (crossDraw k) (mutDraw k) k s pop with
    | (_, _, none) => none
    | (s1, pop1, some p) =>
      breedChildren cfg selFn crossFn mutFn crossDraw mutDraw n (k + 1) s1 pop1
        (acc ++ [p])

/-- `Evolver.breedSingleGeneration` (population.go:189-202): elitism first,
then fill the remaining `len(population) - len(elite)` slots with bred
children. -/
def breedSingleGeneration (cfg : EvolverConfiguration) (selFn : SelFn)
    (crossFn : CrossFn) (mutFn : MutFn) (crossDraw : Nat → ℚ)
    (mutDraw : Nat → Nat → ℚ) (s : Store) (pop : Population) :
    Option (Store × Population) :=
  match applyElitism cfg pop with
  | none => none
  | some elite =>
    match breedChildren cfg selFn crossFn mutFn crossDraw mutDraw
        (pop.length - elite.length) elite.length s pop elite with
    | none => none
    | some (s1, _, newPop) => some (s1, newPop)

/-- `Evolver.calculateFitnesses` (population.go:176-186): assign the computed
fitness to both `Fitness` and `weight` of every chromosome, in place. -/
def calculateFitnesses (fitFn : FitFn) (s : Store) (pop : Population) : Store :=
  pop.foldl
    (fun st p =>
      let f := fitFn (getC st p)
      st.set p ⟨(getC st p).genes, f, f⟩)
    s

/-- One evaluation pass of `Evolve`: `calculateFitnesses` followed by the
ascending `sort.Slice` (population.go:148-151 and 155-159). -/
def evalSortStep (fitFn : FitFn) (st : Store × Population) : Store × Population :=
  let s1 := calculateFitnesses fitFn st.1 st.2
  (s1, sortByFitness s1 st.2)

/-- The three start-of-evolution checks of `Evolve` (population.go:136-146):
each failed check only appends a `log.Errorln` diagnostic. -/
def validationDiagnostics (cfg : EvolverConfiguration) (pop : Population) :
    List String :=
  (if pop.length = 0 then ["There are no chromosomes in the population."] else []) ++
    (if cfg.crossoverCount ≥ pop.length then
      ["The crossover count must be less than the number of chromosomes in the population."]
    else []) ++
    (if cfg.elitism > pop.length then
      ["The elitism count must be less than or equal to the number of chromosomes in the population."]
    else [])

/-- The generation loop of `Evolve` (population.go:153-160), with `fuel`
bounding the number of iterations, `g` the generation counter (also feeding
the per-generation randomness oracles).  Returns the list of states observed
by `shouldContinue` after each breeding + evaluation + sort; a panic during
breeding aborts the run. -/
def evolveLoop (cfg : EvolverConfiguration) (selFn : Nat → SelFn)
    (crossFn : Nat → CrossFn) (mutFn : MutFn) (fitFn : FitFn)
    (crossDraw : Nat → Nat → ℚ) (mutDraw : Nat → Nat → Nat → ℚ)
    (sc : Nat → Store × Population → Bool) :
    Nat → Nat → Store × Population → List (Store × Population)
  | 0, _, _ => []
  | fuel + 1, g, st =>
    if sc g st then
      match breedSingleGeneration cfg (selFn g) (crossFn g) mutFn (crossDraw g)
          (mutDraw g) st.1 st.2 with
      | none => []
      | some st1 =>
        let st2 := evalSortStep fitFn st1
        st2 :: evolveLoop cfg selFn crossFn mutFn fitFn crossDraw mutDraw sc
          fuel (g + 1) st2
    else []

/-- The sequence of evaluated-and-sorted population states produced by
`Evolve` (population.go:148-160): the initial evaluation + sort, then one
state per generation of the loop. -/
def evolveTrace (cfg : EvolverConfiguration) (selFn : Nat → SelFn)
    (crossFn : Nat → CrossFn) (mutFn : MutFn) (fitFn : FitFn)
    (crossDraw : Nat → Nat → ℚ) (mutDraw : Nat → Nat → Nat → ℚ)
    (sc : Nat → Store × Population → Bool) (fuel : Nat)
    (st : Store × Population) : List (Store × Population) :=
  let st0 := evalSortStep fitFn st
  st0 :: evolveLoop cfg selFn crossFn mutFn fitFn crossDraw mutDraw sc fuel 0 st0

/-- `Evolver.Evolve` (population.go:135-161): emit the validation
diagnostics, then run the evaluation + generation loop regardless. -/
def Evolve (cfg : EvolverConfiguration) (selFn : Nat → SelFn)
    (crossFn : Nat → CrossFn) (mutFn : MutFn) (fitFn : FitFn)
    (crossDraw : Nat → Nat → ℚ) (mutDraw : Nat → Nat → Nat → ℚ)
    (sc : Nat → Store × Population → Bool) (fuel : Nat)
    (st : Store × Population) : List String × List (Store × Population) :=
  (validationDiagnostics cfg st.2,
    evolveTrace cfg selFn crossFn mutFn fitFn crossDraw mutDraw sc fuel st)

/-- The built-in rank selection method wired into an `Evolver` configuration:
each invocation `j` draws its own `rand.Intn` value `ro j`. -/
def rankSel (ro : Nat → Nat) : SelFn := fun j s pop => RankFunction (ro j) s pop

/-- The built-in roulette selection method wired into an `Evolver`
configuration: each invocation `j` draws its own `rand.Float64` value
`rf j`. -/
def rouletteSel (rf : Nat → ℚ) : SelFn := fun j s pop => RouletteFunction (rf j) s pop

/-! ### Concrete example data used by the witnesses -/

/-- A two-chromosome store with genes `[1]` and `[2]`, not yet evaluated. -/
def exStore : Store := [⟨[1], 0, 0⟩, ⟨[2], 0, 0⟩]

/-- Fitness = first gene. -/
def exFit : FitFn := fun c => c.genes.headD 0

/-- A configuration whose crossover count (5) is not less than the example
population size (2): invalid per the engine's start-of-evolution checks.
Elitism 1, both rates 0. -/
def exCfgInvalid : EvolverConfiguration := ⟨1, 0, 0, 5⟩

/-- Rank selection with the all-zero `rand.Intn` oracle, per generation. -/
def exSel : Nat → SelFn := fun _ => rankSel fun _ => 0

/-- A crossover function (never reached: the crossover rate is 0). -/
def exCross : Nat → CrossFn := fun _ _ _ _ _ => none

/-- A mutation function (never reached: the mutation rate is 0). -/
def exMut : MutFn := fun _ _ => 0

/-- `shouldCrossover` draws of 1 (never ≤ the rate 0). -/
def exCrossDraw : Nat → Nat → ℚ := fun _ _ => 1

/-- `shouldMutate` draws of 1 (never ≤ the rate 0). -/
def exMutDraw : Nat → Nat → Nat → ℚ := fun _ _ _ => 1

/-- A continuation predicate that always asks for another generation. -/
def exSc : Nat → Store × Population → Bool := fun _ _ => true

/-! ### Basic store lemmas -/

theorem getC_set_self (s : Store) (p : Ptr) (c : Chromosome) (h : p < s.length) :
    getC (s.set p c) p = c := by
  rw [getC, List.getD_eq_getElem?_getD, List.getElem?_set_self h]; rfl

theorem getC_set_ne (s : Store) (p q : Ptr) (c : Chromosome) (h : p ≠ q) :
    getC (s.set p c) q = getC s q := by
  rw [getC, List.getD_eq_getElem?_getD, List.getElem?_set_ne h, getC,
    List.getD_eq_getElem?_getD]

theorem length_setWeight (s : Store) (p : Ptr) (w : ℚ) :
    (setWeight s p w).length = s.length := by
  simp [setWeight]

theorem getC_setWeight_self (s : Store) (p : Ptr) (w : ℚ) (h : p < s.length) :
    getC (setWeight s p w) p = ⟨(getC s p).genes, (getC s p).fitness, w⟩ :=
  getC_set_self _ _ _ h

theorem getC_setWeight_ne (s : Store) (p q : Ptr) (w : ℚ) (h : p ≠ q) :
    getC (setWeight s p w) q = getC s q :=
  getC_set_ne _ _ _ _ h

theorem getC_setWeight_gf (s : Store) (p q : Ptr) (w : ℚ) :
    (getC (setWeight s p w) q).genes = (getC s q).genes ∧
      (getC (setWeight s p w) q).fitness = (getC s q).fitness := by
  rcases eq_or_ne p q with rfl | h
  · by_cases hp : p < s.length
    · rw [getC_setWeight_self _ _ _ hp]; exact ⟨rfl, rfl⟩
    · rw [setWeight, List.set_eq_of_length_le (le_of_not_lt hp)]; exact ⟨rfl, rfl⟩
  · rw [getC_setWeight_ne _ _ _ _ h]; exact ⟨rfl, rfl⟩

theorem getC_append_left (s l : Store) (q : Ptr) (h : q < s.length) :
    getC (s ++ l) q = getC s q := by
  rw [getC, List.getD_eq_getElem?_getD, List.getElem?_append_left h, getC,
    List.getD_eq_getElem?_getD]

theorem getD_mem (l : List Nat) (i : Nat) (h : i < l.length) : l.getD i 0 ∈ l := by
  rw [List.getD_eq_getElem _ _ h]; exact List.getElem_mem h

/-! ### Rank-selection lemmas -/

theorem length_rankAssignFrom (pop : Population) :
    ∀ (s : Store) (i : Nat), (rankAssignFrom s i pop).length = s.length := by
  induction pop with
  | nil => intro s i; rfl
  | cons p rest ih => intro s i; rw [rankAssignFrom, ih, length_setWeight]

theorem getC_rankAssignFrom_not_mem (pop : Population) :
    ∀ (s : Store) (i : Nat) (q : Ptr), q ∉ pop →
      getC (rankAssignFrom s i pop) q = getC s q := by
  induction pop with
  | nil => intro s i q _; rfl
  | cons p rest ih =>
    intro s i q hq
    simp only [List.mem_cons, not_or] at hq
    rw [rankAssignFrom, ih _ _ _ hq.2, getC_setWeight_ne _ _ _ _ (Ne.symm hq.1)]

theorem getC_rankAssignFrom_gf (pop : Population) :
    ∀ (s : Store) (i : Nat) (q : Ptr),
      (getC (rankAssignFrom s i pop) q).genes = (getC s q).genes ∧
        (getC (rankAssignFrom s i pop) q).fitness = (getC s q).fitness := by
  induction pop with
  | nil => intro s i q; exact ⟨rfl, rfl⟩
  | cons p rest ih =>
    intro s i q
    have h1 := ih (setWeight s p ((i : ℚ) + 1)) (i + 1) q
    have h2 := getC_setWeight_gf s p q ((i : ℚ) + 1)
    rw [rankAssignFrom]
    exact ⟨h1.1.trans h2.1, h1.2.trans h2.2⟩

theorem rankAssignFrom_last_weight (pop : Population) :
    ∀ (s : Store) (i : Nat), pop ≠ [] → pop.getD (pop.length - 1) 0 < s.length →
      (getC (rankAssignFrom s i pop) (pop.getD (pop.length - 1) 0)).weight
        = (i : ℚ) + pop.length := by
  induction pop with
  | nil => intro s i h _; exact absurd rfl h
  | cons p rest ih =>
    intro s i _ hv
    cases rest with
    | nil =>
      have hg : ([p] : Population).getD (([p] : Population).length - 1) 0 = p := rfl
      rw [hg] at hv ⊢
      rw [rankAssignFrom, rankAssignFrom, getC_setWeight_self _ _ _ hv]
      simp only [List.length_singleton]
      push_cast; ring
    | cons q rest' =>
      have hne : q :: rest' ≠ [] := by simp
      have hidx : (p :: q :: rest').getD ((p :: q :: rest').length - 1) 0
          = (q :: rest').getD ((q :: rest').length - 1) 0 := by
        simp [List.getD]
      rw [hidx] at hv ⊢
      rw [rankAssignFrom,
        ih (setWeight s p ((i : ℚ) + 1)) (i + 1) hne (by rwa [length_setWeight])]
      simp only [List.length_cons]
      push_cast; ring

theorem rankAssignFrom_getD_weight (pop : Population) :
    ∀ (s : Store) (i j : Nat), pop.Nodup → (∀ p ∈ pop, p < s.length) →
      j < pop.length →
      (getC (rankAssignFrom s i pop) (pop.getD j 0)).weight = (i : ℚ) + j + 1 := by
  induction pop with
  | nil => intro s i j _ _ hj; exact absurd hj (by simp)
  | cons p rest ih =>
    intro s i j hnd hv hj
    cases j with
    | zero =>
      have hp : p ∉ rest := (List.nodup_cons.mp hnd).1
      rw [show (p :: rest).getD 0 0 = p from rfl, rankAssignFrom,
        getC_rankAssignFrom_not_mem rest _ _ _ hp,
        getC_setWeight_self s p _ (hv p (List.mem_cons_self p rest))]
      push_cast; ring
    | succ j =>
      rw [rankAssignFrom, show (p :: rest).getD (j + 1) 0 = rest.getD j 0 from rfl,
        ih (setWeight s p ((i : ℚ) + 1)) (i + 1) j (List.nodup_cons.mp hnd).2
          (fun q hq => by rw [length_setWeight]; exact hv q (List.mem_cons_of_mem p hq))
          (Nat.lt_of_succ_lt_succ hj)]
      push_cast; ring

theorem rankAssignFrom_weight_ge_one (pop : Population) :
    ∀ (s : Store) (i : Nat) (q : Ptr), q ∈ pop → q < s.length →
      1 ≤ (getC (rankAssignFrom s i pop) q).weight := by
  induction pop with
  | nil => intro s i q hq _; exact absurd hq (by simp)
  | cons p rest ih =>
    intro s i q hq hql
    by_cases hmem : q ∈ rest
    · rw [rankAssignFrom]
      exact ih _ (i + 1) q hmem (by rwa [length_setWeight])
    · have hqp : q = p := by
        rcases List.mem_cons.mp hq with h | h
        · exact h
        · exact absurd h hmem
      subst hqp
      rw [rankAssignFrom, getC_rankAssignFrom_not_mem rest _ _ _ hmem,
        getC_setWeight_self s q _ hql]
      have : (0 : ℚ) ≤ (i : ℚ) := by positivity
      simp only []
      linarith

/-! ### Cumulative-scan lemmas -/

theorem SumWeights_nil (s : Store) : SumWeights s [] = 0 := rfl

theorem SumWeights_cons (s : Store) (p : Ptr) (rest : Population) :
    SumWeights s (p :: rest) = (getC s p).weight + SumWeights s rest := by
  simp [SumWeights]

theorem selectScan_mem_of_lt (s : Store) (draw : ℚ) (pop : Population) :
    ∀ acc : ℚ, acc ≤ draw → draw < acc + SumWeights s pop →
      ∃ c, selectScan s draw acc pop = some c ∧ c ∈ pop := by
  induction pop with
  | nil =>
    intro acc h1 h2
    rw [SumWeights_nil, add_zero] at h2
    exact absurd h2 (not_lt.mpr h1)
  | cons p rest ih =>
    intro acc h1 h2
    by_cases hc : draw < acc + (getC s p).weight
    · exact ⟨p, by rw [selectScan, if_pos hc], List.mem_cons_self p rest⟩
    · have h1' : acc + (getC s p).weight ≤ draw := not_lt.mp hc
      have h2' : draw < acc + (getC s p).weight + SumWeights s rest := by
        rw [SumWeights_cons] at h2; linarith
      obtain ⟨c, hs, hm⟩ := ih _ h1' h2'
      exact ⟨c, by rw [selectScan, if_neg hc]; exact hs, List.mem_cons_of_mem p hm⟩

theorem sum_ge_one_of_all_ge_one (l : List ℚ) (hne : l ≠ []) (h : ∀ x ∈ l, 1 ≤ x) :
    1 ≤ l.sum := by
  cases l with
  | nil => exact absurd rfl hne
  | cons x rest =>
    have h0 : 0 ≤ rest.sum :=
      List.sum_nonneg fun y hy => le_trans zero_le_one (h y (List.mem_cons_of_mem x hy))
    have hx := h x (List.mem_cons_self x rest)
    rw [List.sum_cons]; linarith

theorem rankAssign_total_ge_one (s : Store) (pop : Population) (hne : pop ≠ [])
    (hv : ∀ p ∈ pop, p < s.length) : 1 ≤ SumWeights (rankAssign s pop) pop := by
  apply sum_ge_one_of_all_ge_one
  · simpa using hne
  · intro x hx
    obtain ⟨p, hp, rfl⟩ := List.mem_map.mp hx
    exact rankAssignFrom_weight_ge_one pop s 0 p hp
      (by rw [← length_rankAssignFrom pop s 0]
          rw [length_rankAssignFrom]; exact hv p hp)

/-! ### RankFunction-level lemmas -/

theorem RankFunction_pop (r : Nat) (s : Store) (pop : Population) :
    (RankFunction r s pop).2.1 = pop := by
  rw [RankFunction]
  split
  · rfl
  · dsimp only
    split <;> rfl

theorem RankFunction_store_mono (r : Nat) (s : Store) (pop : Population) :
    s.length ≤ (RankFunction r s pop).1.length := by
  rw [RankFunction]
  split
  · rw [rankAssign, length_rankAssignFrom]
  · dsimp only
    split
    · rw [rankAssign, length_rankAssignFrom]
    · simp only [List.length_append, rankAssign, length_rankAssignFrom]
      omega

theorem RankFunction_gf (r : Nat) (s : Store) (pop : Population) (q : Ptr)
    (hq : q < s.length) :
    (getC (RankFunction r s pop).1 q).genes = (getC s q).genes ∧
      (getC (RankFunction r s pop).1 q).fitness = (getC s q).fitness := by
  rw [RankFunction]
  split
  · exact getC_rankAssignFrom_gf pop s 0 q
  · dsimp only
    split
    · exact getC_rankAssignFrom_gf pop s 0 q
    · rw [getC_append_left _ _ _ (by rw [rankAssign, length_rankAssignFrom]; exact hq)]
      exact getC_rankAssignFrom_gf pop s 0 q

theorem RankFunction_last_weight (r : Nat) (s : Store) (pop : Population)
    (hne : pop ≠ []) (hv : pop.getD (pop.length - 1) 0 < s.length) :
    (getC (RankFunction r s pop).1 (pop.getD (pop.length - 1) 0)).weight
      = pop.length := by
  have hlast : (getC (rankAssign s pop) (pop.getD (pop.length - 1) 0)).weight
      = pop.length := by
    rw [rankAssign, rankAssignFrom_last_weight pop s 0 hne hv]
    push_cast; ring
  rw [RankFunction]
  split
  · exact hlast
  · dsimp only
    split
    · exact hlast
    · rw [getC_append_left _ _ _ (by rw [rankAssign, length_rankAssignFrom]; exact hv)]
      exact hlast

/-! ### Tournament lemmas -/

theorem maxWeightIndex_lt (s : Store) :
    ∀ (rest : Population) (mv : ℚ) (best i n : Nat), best < n →
      i + rest.length ≤ n → maxWeightIndex s mv best i rest < n := by
  intro rest
  induction rest with
  | nil => intro mv best i n hb _; exact hb
  | cons p rest' ih =>
    intro mv best i n hb hlen
    rw [List.length_cons] at hlen
    rw [maxWeightIndex]
    split
    · exact ih _ i (i + 1) n (by omega) (by omega)
    · exact ih _ best (i + 1) n hb (by omega)

theorem ChromosomeWithMaxWeight_mem (s : Store) (pop : Population) (hne : pop ≠ []) :
    ∃ c, ChromosomeWithMaxWeight s pop = some c ∧ c ∈ pop := by
  have hlen : 0 < pop.length := List.length_pos.mpr hne
  have hlt : maxWeightIndex s (-maxFloat64) 0 0 pop < pop.length :=
    maxWeightIndex_lt s pop (-maxFloat64) 0 0 pop.length hlen (by omega)
  refine ⟨pop[maxWeightIndex s (-maxFloat64) 0 0 pop], ?_, List.getElem_mem hlt⟩
  rw [ChromosomeWithMaxWeight, List.getElem?_eq_getElem hlt]

/-! ### Claim C4 -/

/-- **C4**: for every non-empty population (of distinct, valid chromosome
pointers), rank selection assigns chromosome `j` the weight `j + 1` (its
1-based position), returns via the cumulative-weight scan a chromosome of the
population whose assigned weight is at least 1 (never zero), and the
defensive empty-chromosome fallback is unreachable (the store length is
unchanged, so no fallback chromosome was allocated). -/
theorem C4_rank_selection_safe (s : Store) (pop : Population) (r : Nat)
    (hne : pop ≠ []) (hnd : pop.Nodup) (hv : ∀ p ∈ pop, p < s.length) :
    ∃ c, (RankFunction r s pop).2.2 = some c ∧ c ∈ pop ∧
      1 ≤ (getC (RankFunction r s pop).1 c).weight ∧
      (RankFunction r s pop).1.length = s.length ∧
      ∀ j, j < pop.length →
        (getC (RankFunction r s pop).1 (pop.getD j 0)).weight = (j : ℚ) + 1 := by
  have htot : 1 ≤ SumWeights (rankAssign s pop) pop :=
    rankAssign_total_ge_one s pop hne hv
  have hfloor : 1 ≤ ⌊SumWeights (rankAssign s pop) pop⌋ :=
    Int.le_floor.mpr (by exact_mod_cast htot)
  have ht : 1 ≤ ⌊SumWeights (rankAssign s pop) pop⌋.toNat := by omega
  have hdraw_lt :
      ((r % ⌊SumWeights (rankAssign s pop) pop⌋.toNat : Nat) : ℚ)
        < SumWeights (rankAssign s pop) pop := by
    have h1 : ((r % ⌊SumWeights (rankAssign s pop) pop⌋.toNat : Nat) : ℚ)
        < ((⌊SumWeights (rankAssign s pop) pop⌋.toNat : Nat) : ℚ) := by
      exact_mod_cast Nat.mod_lt r (by omega)
    have h2 : ((⌊SumWeights (rankAssign s pop) pop⌋.toNat : Nat) : ℚ)
        = ((⌊SumWeights (rankAssign s pop) pop⌋ : ℤ) : ℚ) := by
      have h3 : ((⌊SumWeights (rankAssign s pop) pop⌋.toNat : Nat) : ℤ)
          = ⌊SumWeights (rankAssign s pop) pop⌋ := Int.toNat_of_nonneg (by omega)
      exact_mod_cast h3
    calc ((r % ⌊SumWeights (rankAssign s pop) pop⌋.toNat : Nat) : ℚ)
        < ((⌊SumWeights (rankAssign s pop) pop⌋ : ℤ) : ℚ) := by rw [← h2]; exact h1
      _ ≤ SumWeights (rankAssign s pop) pop := Int.floor_le _
  obtain ⟨c, hscan, hmem⟩ :=
    selectScan_mem_of_lt (rankAssign s pop)
      ((r % ⌊SumWeights (rankAssign s pop) pop⌋.toNat : Nat) : ℚ) pop 0
      (by positivity) (by rw [zero_add]; exact hdraw_lt)
  have hR : RankFunction r s pop = (rankAssign s pop, pop, some c) := by
    simp only [RankFunction]
    rw [if_neg (by omega : ¬⌊SumWeights (rankAssign s pop) pop⌋ ≤ 0), hscan]
  refine ⟨c, by rw [hR], hmem, ?_, ?_, ?_⟩
  · rw [hR]
    exact rankAssignFrom_weight_ge_one pop s 0 c hmem (hv c hmem)
  · rw [hR]
    exact length_rankAssignFrom pop s 0
  · intro j hj
    rw [hR]
    have h := rankAssignFrom_getD_weight pop s 0 j hnd hv hj
    rw [rankAssign, h]
    push_cast; ring

/-- Witness for C4 at a concrete input: two chromosomes, draw oracle `2`. -/
theorem C4_witness :
    ∃ c, (RankFunction 2 [⟨[1], 1, 1⟩, ⟨[2], 2, 2⟩] [0, 1]).2.2 = some c ∧
      c ∈ [0, 1] ∧
      1 ≤ (getC (RankFunction 2 [⟨[1], 1, 1⟩, ⟨[2], 2, 2⟩] [0, 1]).1 c).weight ∧
      (RankFunction 2 [⟨[1], 1, 1⟩, ⟨[2], 2, 2⟩] [0, 1]).1.length
        = ([⟨[1], 1, 1⟩, ⟨[2], 2, 2⟩] : Store).length ∧
      ∀ j, j < ([0, 1] : Population).length →
        (getC (RankFunction 2 [⟨[1], 1, 1⟩, ⟨[2], 2, 2⟩] [0, 1]).1
          (([0, 1] : Population).getD j 0)).weight = (j : ℚ) + 1 :=
  C4_rank_selection_safe [⟨[1], 1, 1⟩, ⟨[2], 2, 2⟩] [0, 1] 2 (by decide)
    (by decide) (by decide)

/-! ### Claim C3 -/

/-- **C3 (amended)**: for every population of **at least two** chromosomes,
tournament selection returns a chromosome present in the original
(pre-shuffle) population, after drawing a tournament group size in
`[1, populationSize-1]` inclusive.  (`shuffled` is the outcome of the
in-place shuffle, a permutation of the population.) -/
theorem C3_tournament_selection (s : Store) (pop shuffled : Population)
    (r : Nat) (h2 : 2 ≤ pop.length) (hperm : shuffled.Perm pop) :
    ∃ c, (TournamentFunction shuffled r s pop).2 = some c ∧ c ∈ pop ∧
      1 ≤ tournamentGroupSize pop.length r ∧
      tournamentGroupSize pop.length r ≤ pop.length - 1 := by
  have hlen : shuffled.length = pop.length := hperm.length_eq
  have hg1 : 1 ≤ tournamentGroupSize pop.length r := by
    rw [tournamentGroupSize]
    exact Nat.succ_le_succ (Nat.zero_le _)
  have hgub : tournamentGroupSize pop.length r ≤ pop.length - 1 := by
    rw [tournamentGroupSize]
    exact Nat.succ_le_of_lt (Nat.mod_lt r (by omega))
  have hne : shuffled.take (tournamentGroupSize pop.length r) ≠ [] := by
    apply List.length_pos.mp
    rw [List.length_take]
    apply lt_min
    · rw [tournamentGroupSize]; exact Nat.succ_pos _
    · omega
  obtain ⟨c, hc, hmem⟩ := ChromosomeWithMaxWeight_mem s _ hne
  refine ⟨c, ?_, hperm.subset (List.take_subset _ _ hmem), hg1, hgub⟩
  rw [TournamentFunction, if_neg (by omega)]
  exact hc

/-- Counterexample to **C3 as stated**: on the singleton population the group
size draw is Go's `rand.Intn(0)`, which panics, so no chromosome of the
population is returned (the claim asserts one always is for every non-empty
population). -/
theorem C3_counterexample :
    (TournamentFunction [0] 0 [⟨[], 1, 1⟩] [0]).2 = none := by decide

/-- Witness for the amended C3 at a concrete input: a two-chromosome
population with the identity shuffle outcome. -/
theorem C3_witness :
    ∃ c, (TournamentFunction [1, 0] 0 [⟨[], 1, 1⟩, ⟨[], 2, 2⟩] [0, 1]).2 = some c ∧
      c ∈ [0, 1] ∧
      1 ≤ tournamentGroupSize ([0, 1] : Population).length 0 ∧
      tournamentGroupSize ([0, 1] : Population).length 0
        ≤ ([0, 1] : Population).length - 1 :=
  C3_tournament_selection [⟨[], 1, 1⟩, ⟨[], 2, 2⟩] [0, 1] [1, 0] 0 (by decide)
    (by decide)

/-! ### Claim C1 -/

/-- **C1** is false of the code (the code is the slip, the claim states the
spec's clear intent): with weights `3` and `-1` (already sorted descending by
fitness), normalisation yields weights `3/2` and `-1/2`; the shift step then
**adds** the minimum (`ShiftWeights(min)` with `min = -1/2`), producing
weights `1` and `-1` — a negative weight remains and the minimum is `-1`,
not `0`.  (Making the minimum 0 would require shifting by `-min`.) -/
theorem C1_roulette_shift_eval :
    (getC (rouletteWeightPrep [⟨[], 3, 3⟩, ⟨[], -1, -1⟩] [0, 1]) 0).weight = 1 ∧
    (getC (rouletteWeightPrep [⟨[], 3, 3⟩, ⟨[], -1, -1⟩] [0, 1]) 1).weight = -1 ∧
    MinWeight (rouletteWeightPrep [⟨[], 3, 3⟩, ⟨[], -1, -1⟩] [0, 1]) [0, 1] = -1 ∧
    CountNegativeWeights (rouletteWeightPrep [⟨[], 3, 3⟩, ⟨[], -1, -1⟩] [0, 1])
      [0, 1] = 1 := by
  norm_num [rouletteWeightPrep, rouletteNormalize, rouletteShift, SumWeights,
    CountNegativeWeights, MinWeight, ShiftWeights, setWeight, getC, maxFloat64]

/-! ### Crossover lemmas -/

theorem set_getElem_self {α : Type} (l : List α) (i : Nat) (h : i < l.length) :
    l.set i l[i] = l := by
  apply List.ext_getElem (by rw [List.length_set])
  intro n h1 h2
  rw [List.getElem_set]
  split
  · next heq => subst heq; rfl
  · rfl

theorem foldlM_copy_self (gA : List ℚ) :
    ∀ (cnt lo : Nat), lo + cnt ≤ gA.length →
      (List.range' lo cnt).foldlM (fun g j => (gA[j]?).map fun v => g.set j v) gA
        = some gA := by
  intro cnt
  induction cnt with
  | zero => intro lo _; rfl
  | succ n ih =>
    intro lo h
    have hlo : lo < gA.length := by omega
    rw [List.range'_succ, List.foldlM_cons, List.getElem?_eq_getElem hlo]
    show (some (gA.set lo gA[lo])).bind _ = _
    rw [set_getElem_self gA lo hlo]
    exact ih (lo + 1) (by omega)

theorem writeSeg_self (gA : List ℚ) (hi : Nat) (h : hi ≤ gA.length) :
    writeSeg gA 0 hi gA = some gA := by
  rw [writeSeg]
  exact foldlM_copy_self gA (hi - 0) 0 (by omega)

theorem getD_set_self {α : Type} (l : List α) (i : Nat) (a d : α)
    (h : i < l.length) : (l.set i a).getD i d = a := by
  rw [List.getD_eq_getElem?_getD, List.getElem?_set_self h]; rfl

theorem getD_set_ne {α : Type} (l : List α) {i j : Nat} (a d : α) (h : i ≠ j) :
    (l.set i a).getD j d = l.getD j d := by
  rw [List.getD_eq_getElem?_getD, List.getElem?_set_ne h,
    ← List.getD_eq_getElem?_getD]

/-! ### Claim C7 -/

/-- **C7**: for parents of equal gene length, point crossover with
`count = 0` returns a child whose genes are exactly parent A's genes (the
only segment is the full range, copied from parent A over the child's initial
copy of parent A). -/
theorem C7_point_crossover_zero (jd : Nat → Nat) (cA cB : Chromosome)
    (hlen : cA.genes.length = cB.genes.length) :
    ∃ c, PointFunction jd cA cB 0 = some c ∧ c.genes = cA.genes := by
  refine ⟨⟨cA.genes, 0, 0⟩, ?_, rfl⟩
  have hseg : segmentsLoop cA.genes cB.genes [0, cA.genes.length] cA.genes
      = some cA.genes := by
    rw [segmentsLoop]
    have h1 : ([0, cA.genes.length] : List Nat).length - 1 = 1 := rfl
    have hr1 : List.range 1 = [0] := rfl
    rw [h1, hr1, List.foldlM_cons]
    have h2 : writeSeg (if 0 % 2 = 0 then cA.genes else cB.genes)
        (([0, cA.genes.length] : List Nat).getD 0 0)
        (([0, cA.genes.length] : List Nat).getD 1 0) cA.genes
        = some cA.genes := by
      rw [if_pos rfl]
      exact writeSeg_self cA.genes cA.genes.length le_rfl
    rw [h2]
    rfl
  simp only [PointFunction, List.take_zero, Nat.zero_sub, List.replicate_zero,
    List.nil_append, List.append_nil]
  rw [if_pos (Nat.zero_le _)]
  have hpts : (([0] ++ (List.insertionSort (· ≤ ·) ([] : List Nat)))
      ++ [cA.genes.length]) = [0, cA.genes.length] := rfl
  rw [hpts, hseg]
  rfl

/-- Witness for C7 at a concrete input. -/
theorem C7_witness :
    ∃ c, PointFunction (fun _ => 0) ⟨[1, 2, 3], 0, 0⟩ ⟨[4, 5, 6], 0, 0⟩ 0
      = some c ∧ c.genes = (⟨[1, 2, 3], 0, 0⟩ : Chromosome).genes :=
  C7_point_crossover_zero (fun _ => 0) ⟨[1, 2, 3], 0, 0⟩ ⟨[4, 5, 6], 0, 0⟩ rfl

/-! ### Claim C8 -/

theorem uniformGenes_spec (coin : Nat → Nat) (gA gB : List ℚ) :
    ∀ (l : List Nat) (g : List ℚ), (∀ i ∈ l, i < gB.length) →
      g.length = gA.length →
      (∀ i, i < g.length → g.getD i 0 = gA.getD i 0 ∨ g.getD i 0 = gB.getD i 0) →
      ∃ g', l.foldlM (fun g i =>
          if coin i % 2 = 1 then some (g.set i (gA.getD i 0))
          else (gB[i]?).map fun v => g.set i v) g = some g' ∧
        g'.length = gA.length ∧
        (∀ i, i < g'.length →
          g'.getD i 0 = gA.getD i 0 ∨ g'.getD i 0 = gB.getD i 0) := by
  intro l
  induction l with
  | nil => intro g _ hg hprop; exact ⟨g, rfl, hg, hprop⟩
  | cons a rest ih =>
    intro g hmem hg hprop
    have ha : a < gB.length := hmem a (List.mem_cons_self a rest)
    have hstep : ∀ (v : ℚ), v = gA.getD a 0 ∨ v = gB.getD a 0 →
        (g.set a v).length = gA.length ∧
        (∀ i, i < (g.set a v).length →
          (g.set a v).getD i 0 = gA.getD i 0 ∨ (g.set a v).getD i 0 = gB.getD i 0) := by
      intro v hv
      refine ⟨by rw [List.length_set, hg], ?_⟩
      intro i hil
      rw [List.length_set] at hil
      rcases eq_or_ne a i with rfl | hne
      · by_cases hal : a < g.length
        · rw [getD_set_self g a v 0 hal]; exact hv
        · rw [List.set_eq_of_length_le (le_of_not_lt hal)]
          exact hprop a hil
      · rw [getD_set_ne g v 0 hne]; exact hprop i hil
    rw [List.foldlM_cons]
    by_cases hc : coin a % 2 = 1
    · rw [if_pos hc]
      have h := hstep (gA.getD a 0) (Or.inl rfl)
      obtain ⟨g', h1, h2, h3⟩ := ih (g.set a (gA.getD a 0))
        (fun i hi => hmem i (List.mem_cons_of_mem a hi)) h.1 h.2
      exact ⟨g', h1, h2, h3⟩
    · rw [if_neg hc, List.getElem?_eq_getElem ha]
      have hgB : gB[a] = gB.getD a 0 := (List.getD_eq_getElem gB 0 ha).symm
      have h := hstep gB[a] (Or.inr hgB)
      obtain ⟨g', h1, h2, h3⟩ := ih (g.set a gB[a])
        (fun i hi => hmem i (List.mem_cons_of_mem a hi)) h.1 h.2
      exact ⟨g', h1, h2, h3⟩

/-- **C8**: for parents of equal gene length, and any outcome of the per-gene
coin flips, uniform crossover succeeds and each gene of the child equals the
corresponding gene of parent A or of parent B. -/
theorem C8_uniform_gene_origin (coin : Nat → Nat) (cA cB : Chromosome)
    (count : Nat) (hlen : cA.genes.length = cB.genes.length) :
    ∃ c, UniformFunction coin cA cB count = some c ∧
      c.genes.length = cA.genes.length ∧
      ∀ i, i < c.genes.length →
        c.genes.getD i 0 = cA.genes.getD i 0 ∨
        c.genes.getD i 0 = cB.genes.getD i 0 := by
  obtain ⟨g', hfold, hlen', hprop⟩ := uniformGenes_spec coin cA.genes cB.genes
    (List.range cA.genes.length) cA.genes
    (fun i hi => hlen ▸ List.mem_range.mp hi) rfl (fun i _ => Or.inl rfl)
  refine ⟨⟨g', 0, 0⟩, ?_, hlen', hprop⟩
  rw [UniformFunction, uniformGenes, hfold]
  rfl

/-- Witness for C8 at a concrete input. -/
theorem C8_witness :
    ∃ c, UniformFunction (fun i => i) ⟨[1, 2], 0, 0⟩ ⟨[3, 4], 0, 0⟩ 0 = some c ∧
      c.genes.length = (⟨[1, 2], 0, 0⟩ : Chromosome).genes.length ∧
      ∀ i, i < c.genes.length →
        c.genes.getD i 0 = (⟨[1, 2], 0, 0⟩ : Chromosome).genes.getD i 0 ∨
        c.genes.getD i 0 = (⟨[3, 4], 0, 0⟩ : Chromosome).genes.getD i 0 :=
  C8_uniform_gene_origin (fun i => i) ⟨[1, 2], 0, 0⟩ ⟨[3, 4], 0, 0⟩ 0 rfl

/-! ### Claim C9 -/

theorem length_foldl_swap (jd : Nat → Nat) (il : List Nat) :
    ∀ (cur : List Nat),
      (il.foldl (fun cur i =>
        let j := jd i % (cur.length - i) + i
        if i = j then cur else swapAt cur i j) cur).length = cur.length := by
  induction il with
  | nil => intro cur; rfl
  | cons a rest ih =>
    intro cur
    rw [List.foldl_cons, ih]
    dsimp only
    split
    · rfl
    · simp [swapAt]

theorem length_scrambleIndexes (jd : Nat → Nat) (l : List Nat) :
    (scrambleIndexes jd l).length = l.length :=
  length_foldl_swap jd (List.range (l.length - 1)) l

theorem length_pointShuffle (jd : Nat → Nat) (l : List Nat) :
    (pointShuffle jd l).length = l.length := by
  rw [pointShuffle]
  split
  · exact length_scrambleIndexes jd l
  · rfl

/-- Counterexample to **C9 as stated**: the claim asserts that every point
count greater than the gene length makes the `indexes[0:count]` slice panic.
But Go slicing is legal up to the capacity, and the append-grown `indexes`
slice for 3 genes has capacity 4, so `count = 4 > 3` succeeds: the slice
gains one zero-filled slot, the sorted cut points become `[0,0,1,2,3,3]`,
and (with the identity shuffle outcome) the child `[4,2,6]` is returned —
no panic. -/
theorem C9_counterexample :
    PointFunction (fun _ => 0) ⟨[1, 2, 3], 0, 0⟩ ⟨[4, 5, 6], 0, 0⟩ 4
      = some ⟨[4, 2, 6], 0, 0⟩ ∧
    (⟨[1, 2, 3], 0, 0⟩ : Chromosome).genes.length < 4 := by
  constructor
  · norm_num [PointFunction, pointShuffle, scrambleIndexes, swapAt, goCap,
      segmentsLoop, writeSeg, List.insertionSort, List.orderedInsert,
      List.range_succ, List.foldlM_cons]
  · norm_num

/-- **C9 (amended)**: point crossover is total only when the point count is
at most the **capacity** of the append-grown `indexes` slice (under the gc
runtime's doubling growth, the least power of two at or above the gene
length): beyond the capacity the slice `indexes[0:count]` is out of range
and the function fails; and the engine's start-of-evolution validation
accepts a configuration whose point count (2) exceeds both gene length (1)
and capacity (1) because it only compares the count with the population
size (3). -/
theorem C9_point_crossover_count_bound :
    (∀ (jd : Nat → Nat) (cA cB : Chromosome) (count : Nat),
      goCap cA.genes.length < count → PointFunction jd cA cB count = none) ∧
    validationDiagnostics ⟨0, 0, 0, 2⟩ [0, 1, 2] = [] ∧
    PointFunction (fun _ => 0) ⟨[1], 0, 0⟩ ⟨[2], 0, 0⟩ 2 = none := by
  have hmain : ∀ (jd : Nat → Nat) (cA cB : Chromosome) (count : Nat),
      goCap cA.genes.length < count → PointFunction jd cA cB count = none := by
    intro jd cA cB count h
    simp only [PointFunction]
    rw [if_neg (by omega)]
  refine ⟨hmain, rfl, hmain (fun _ => 0) ⟨[1], 0, 0⟩ ⟨[2], 0, 0⟩ 2 ?_⟩
  show goCap 1 < 2
  norm_num [goCap]

/-- Witness for the amended C9 at a concrete input: with 2 genes the
capacity is 2, so a count of 3 panics. -/
theorem C9_witness :
    PointFunction (fun _ => 0) ⟨[1, 2], 0, 0⟩ ⟨[3, 4], 0, 0⟩ 3 = none ∧
    validationDiagnostics ⟨0, 0, 0, 2⟩ [0, 1, 2] = [] :=
  ⟨C9_point_crossover_count_bound.1 (fun _ => 0) ⟨[1, 2], 0, 0⟩
      ⟨[3, 4], 0, 0⟩ 3 (by norm_num [goCap]),
    C9_point_crossover_count_bound.2.1⟩

/-! ### Claim C6 -/

theorem sortByFitness_sorted_adj (s : Store) (pop : Population) (i : Nat)
    (hi : i + 1 < (sortByFitness s pop).length) :
    (getC s ((sortByFitness s pop).getD i 0)).fitness ≤
      (getC s ((sortByFitness s pop).getD (i + 1) 0)).fitness := by
  have hs : List.Sorted (fun a b => (getC s a).fitness ≤ (getC s b).fitness)
      (sortByFitness s pop) := by
    haveI ht : IsTotal Ptr fun a b => (getC s a).fitness ≤ (getC s b).fitness :=
      ⟨fun a b => le_total _ _⟩
    haveI htr : IsTrans Ptr fun a b => (getC s a).fitness ≤ (getC s b).fitness :=
      ⟨fun a b c hab hbc => le_trans hab hbc⟩
    exact List.sorted_insertionSort _ _
  have h1 : i < (sortByFitness s pop).length := by omega
  have h := hs.rel_get_of_lt (a := ⟨i, h1⟩) (b := ⟨i + 1, hi⟩)
    (by simp [Fin.lt_def])
  rwa [List.get_eq_getElem, List.get_eq_getElem,
    ← List.getD_eq_getElem _ 0 h1, ← List.getD_eq_getElem _ 0 hi] at h

theorem evolveLoop_mem_shape (cfg : EvolverConfiguration) (selFn : Nat → SelFn)
    (crossFn : Nat → CrossFn) (mutFn : MutFn) (fitFn : FitFn)
    (crossDraw : Nat → Nat → ℚ) (mutDraw : Nat → Nat → Nat → ℚ)
    (sc : Nat → Store × Population → Bool) :
    ∀ (fuel g : Nat) (st : Store × Population),
      ∀ x ∈ evolveLoop cfg selFn crossFn mutFn fitFn crossDraw mutDraw sc fuel g st,
        ∃ stp, x = evalSortStep fitFn stp := by
  intro fuel
  induction fuel with
  | zero =>
    intro g st x hx
    rw [evolveLoop] at hx
    exact absurd hx (List.not_mem_nil x)
  | succ n ih =>
    intro g st x hx
    rw [evolveLoop] at hx
    by_cases hsc : sc g st
    · rw [if_pos hsc] at hx
      cases hb : breedSingleGeneration cfg (selFn g) (crossFn g) mutFn
          (crossDraw g) (mutDraw g) st.1 st.2 with
      | none =>
        rw [hb] at hx
        exact absurd hx (List.not_mem_nil x)
      | some st1 =>
        rw [hb] at hx
        dsimp only at hx
        rcases List.mem_cons.mp hx with rfl | hx'
        · exact ⟨st1, rfl⟩
        · exact ih _ _ x hx'
    · rw [if_neg hsc] at hx
      exact absurd hx (List.not_mem_nil x)

/-- **C6**: every population state in the trace of `Evolve` — the initial
evaluated-and-sorted state and the state after each generation's breeding +
evaluation — is sorted ascending by fitness: adjacent chromosomes satisfy
`population[i].Fitness ≤ population[i+1].Fitness`. -/
theorem C6_sorted_after_every_evaluation (cfg : EvolverConfiguration)
    (selFn : Nat → SelFn) (crossFn : Nat → CrossFn) (mutFn : MutFn)
    (fitFn : FitFn) (crossDraw : Nat → Nat → ℚ) (mutDraw : Nat → Nat → Nat → ℚ)
    (sc : Nat → Store × Population → Bool) (fuel : Nat)
    (st : Store × Population) :
    ∀ stx ∈ evolveTrace cfg selFn crossFn mutFn fitFn crossDraw mutDraw sc fuel st,
      ∀ i, i + 1 < stx.2.length →
        (getC stx.1 (stx.2.getD i 0)).fitness ≤
          (getC stx.1 (stx.2.getD (i + 1) 0)).fitness := by
  intro stx hstx i hi
  have hshape : ∃ stp, stx = evalSortStep fitFn stp := by
    rw [evolveTrace] at hstx
    rcases List.mem_cons.mp hstx with rfl | h
    · exact ⟨st, rfl⟩
    · exact evolveLoop_mem_shape cfg selFn crossFn mutFn fitFn crossDraw mutDraw
        sc fuel 0 _ stx h
  obtain ⟨stp, rfl⟩ := hshape
  exact sortByFitness_sorted_adj (calculateFitnesses fitFn stp.1 stp.2) stp.2 i hi

/-- Witness for C6: in a concrete two-chromosome run, the first trace state
is sorted at index 0. -/
theorem C6_witness :
    (getC (evalSortStep exFit (exStore, [0, 1])).1
        ((evalSortStep exFit (exStore, [0, 1])).2.getD 0 0)).fitness ≤
      (getC (evalSortStep exFit (exStore, [0, 1])).1
        ((evalSortStep exFit (exStore, [0, 1])).2.getD 1 0)).fitness :=
  C6_sorted_after_every_evaluation exCfgInvalid exSel exCross exMut exFit
    exCrossDraw exMutDraw exSc 1 (exStore, [0, 1])
    (evalSortStep exFit (exStore, [0, 1]))
    (by rw [evolveTrace]; exact List.mem_cons_self _ _) 0
    (by show 0 + 1 < (sortByFitness (calculateFitnesses exFit exStore [0, 1])
          [0, 1]).length
        rw [sortByFitness, List.length_insertionSort]
        norm_num)

/-! ### Claim C5 -/

/-- **C5**: an invalid configuration (empty population, crossover count ≥
population size, or elitism > population size) only produces diagnostics:
`Evolve` still evaluates fitnesses, sorts, and enters the generation loop —
its trace starts with the evaluated-and-sorted initial state, and when the
continuation predicate asks for a generation and breeding succeeds, the next
evaluated state is also in the trace. -/
theorem C5_validation_nonfatal (cfg : EvolverConfiguration)
    (selFn : Nat → SelFn) (crossFn : Nat → CrossFn) (mutFn : MutFn)
    (fitFn : FitFn) (crossDraw : Nat → Nat → ℚ) (mutDraw : Nat → Nat → Nat → ℚ)
    (sc : Nat → Store × Population → Bool) (fuel : Nat)
    (st : Store × Population)
    (hinv : st.2 = [] ∨ st.2.length ≤ cfg.crossoverCount ∨
      st.2.length < cfg.elitism) :
    (Evolve cfg selFn crossFn mutFn fitFn crossDraw mutDraw sc fuel st).1 ≠ [] ∧
    (Evolve cfg selFn crossFn mutFn fitFn crossDraw mutDraw sc fuel st).2
      = evalSortStep fitFn st ::
        evolveLoop cfg selFn crossFn mutFn fitFn crossDraw mutDraw sc fuel 0
          (evalSortStep fitFn st) ∧
    ∀ st1, sc 0 (evalSortStep fitFn st) = true →
      breedSingleGeneration cfg (selFn 0) (crossFn 0) mutFn (crossDraw 0)
        (mutDraw 0) (evalSortStep fitFn st).1 (evalSortStep fitFn st).2
        = some st1 →
      1 ≤ fuel →
      evalSortStep fitFn st1
        ∈ (Evolve cfg selFn crossFn mutFn fitFn crossDraw mutDraw sc fuel st).2 := by
  refine ⟨?_, rfl, ?_⟩
  · rcases hinv with h | h | h
    · simp [Evolve, validationDiagnostics, h]
    · simp only [Evolve, validationDiagnostics]
      rw [if_pos (by omega : cfg.crossoverCount ≥ st.2.length)]
      simp
    · simp only [Evolve, validationDiagnostics]
      rw [if_pos (by omega : cfg.elitism > st.2.length)]
      simp
  · intro st1 hsc hb hf
    obtain ⟨m, rfl⟩ : ∃ m, fuel = m + 1 := ⟨fuel - 1, by omega⟩
    show evalSortStep fitFn st1
      ∈ evalSortStep fitFn st ::
        evolveLoop cfg selFn crossFn mutFn fitFn crossDraw mutDraw sc (m + 1) 0
          (evalSortStep fitFn st)
    rw [evolveLoop, if_pos hsc, hb]
    exact List.mem_cons_of_mem _ (List.mem_cons_self _ _)

/-- Witness for C5: a concrete run whose crossover count (5) is invalid for
the population size (2); diagnostics are emitted and one full generation is
still bred and evaluated. -/
theorem C5_witness :
    (Evolve exCfgInvalid exSel exCross exMut exFit exCrossDraw exMutDraw exSc 1
      (exStore, [0, 1])).1 ≠ [] ∧
    evalSortStep exFit ([⟨[1], 1, 1⟩, ⟨[2], 2, 2⟩, ⟨[1], 1, 1⟩], [1, 2])
      ∈ (Evolve exCfgInvalid exSel exCross exMut exFit exCrossDraw exMutDraw exSc
          1 (exStore, [0, 1])).2 := by
  have h := C5_validation_nonfatal exCfgInvalid exSel exCross exMut exFit
    exCrossDraw exMutDraw exSc 1 (exStore, [0, 1])
    (Or.inr (Or.inl (by norm_num [exCfgInvalid, exStore])))
  refine ⟨h.1, h.2.2 ([⟨[1], 1, 1⟩, ⟨[2], 2, 2⟩, ⟨[1], 1, 1⟩], [1, 2]) rfl ?_
    le_rfl⟩
  norm_num [breedSingleGeneration, applyElitism, breedChildren, breedChild,
    mutateGenes, copyInto, exSel, rankSel, RankFunction, rankAssign,
    rankAssignFrom, setWeight, getC, SumWeights, selectScan, evalSortStep,
    calculateFitnesses, sortByFitness, exFit, exCfgInvalid, exStore, exCross,
    exMut, exCrossDraw, exMutDraw, List.insertionSort, List.orderedInsert,
    Int.toNat]
  decide

/-! ### Breeding under rank selection (claims C2 and C10) -/

theorem breedChild_rank_facts (cfg : EvolverConfiguration) (ro : Nat → Nat)
    (crossFn : CrossFn) (mutFn : MutFn) (cd : ℚ) (md : Nat → ℚ) (k : Nat)
    (s : Store) (pop : Population) :
    (breedChild cfg (rankSel ro) crossFn mutFn cd md k s pop).2.1 = pop ∧
    s.length ≤ (breedChild cfg (rankSel ro) crossFn mutFn cd md k s pop).1.length ∧
    (∀ q, q < s.length →
      (getC (breedChild cfg (rankSel ro) crossFn mutFn cd md k s pop).1 q).genes
          = (getC s q).genes ∧
        (getC (breedChild cfg (rankSel ro) crossFn mutFn cd md k s pop).1 q).fitness
          = (getC s q).fitness) ∧
    (pop ≠ [] → pop.getD (pop.length - 1) 0 < s.length →
      (getC (breedChild cfg (rankSel ro) crossFn mutFn cd md k s pop).1
        (pop.getD (pop.length - 1) 0)).weight = pop.length) := by
  cases pop with
  | nil =>
    exact ⟨rfl, le_rfl, fun q _ => ⟨rfl, rfl⟩, fun h _ => absurd rfl h⟩
  | cons p0 rest =>
    have hne : p0 :: rest ≠ [] := by simp
    simp only [breedChild, rankSel]
    rcases hR1 : RankFunction (ro (2 * k)) s (p0 :: rest) with ⟨s1, pop1, res1⟩
    have hp1 : pop1 = p0 :: rest := by
      have := RankFunction_pop (ro (2 * k)) s (p0 :: rest)
      rw [hR1] at this
      exact this
    subst hp1
    have hmono1 : s.length ≤ s1.length := by
      have := RankFunction_store_mono (ro (2 * k)) s (p0 :: rest)
      rw [hR1] at this
      exact this
    have hgf1 : ∀ q, q < s.length →
        (getC s1 q).genes = (getC s q).genes ∧
          (getC s1 q).fitness = (getC s q).fitness := by
      intro q hq
      have := RankFunction_gf (ro (2 * k)) s (p0 :: rest) q hq
      rw [hR1] at this
      exact this
    have hw1 : (p0 :: rest).getD ((p0 :: rest).length - 1) 0 < s.length →
        (getC s1 ((p0 :: rest).getD ((p0 :: rest).length - 1) 0)).weight
          = (p0 :: rest).length := by
      intro hv
      have := RankFunction_last_weight (ro (2 * k)) s (p0 :: rest) hne hv
      rw [hR1] at this
      exact this
    split
    · -- crossover path
      cases res1 with
      | none => exact ⟨rfl, hmono1, hgf1, fun _ hv => hw1 hv⟩
      | some p1 =>
        dsimp only
        rcases hR2 : RankFunction (ro (2 * k + 1)) s1 (p0 :: rest)
          with ⟨s2, pop2, res2⟩
        have hp2 : pop2 = p0 :: rest := by
          have := RankFunction_pop (ro (2 * k + 1)) s1 (p0 :: rest)
          rw [hR2] at this
          exact this
        subst hp2
        have hmono2 : s1.length ≤ s2.length := by
          have := RankFunction_store_mono (ro (2 * k + 1)) s1 (p0 :: rest)
          rw [hR2] at this
          exact this
        have hgf2 : ∀ q, q < s1.length →
            (getC s2 q).genes = (getC s1 q).genes ∧
              (getC s2 q).fitness = (getC s1 q).fitness := by
          intro q hq
          have := RankFunction_gf (ro (2 * k + 1)) s1 (p0 :: rest) q hq
          rw [hR2] at this
          exact this
        have hw2 : (p0 :: rest).getD ((p0 :: rest).length - 1) 0 < s1.length →
            (getC s2 ((p0 :: rest).getD ((p0 :: rest).length - 1) 0)).weight
              = (p0 :: rest).length := by
          intro hv
          have := RankFunction_last_weight (ro (2 * k + 1)) s1 (p0 :: rest) hne hv
          rw [hR2] at this
          exact this
        have hgf12 : ∀ q, q < s.length →
            (getC s2 q).genes = (getC s q).genes ∧
              (getC s2 q).fitness = (getC s q).fitness := by
          intro q hq
          have h2 := hgf2 q (lt_of_lt_of_le hq hmono1)
          have h1 := hgf1 q hq
          exact ⟨h2.1.trans h1.1, h2.2.trans h1.2⟩
        cases res2 with
        | none => exact ⟨rfl, hmono1.trans hmono2, hgf12,
            fun _ hv => hw2 (lt_of_lt_of_le hv hmono1)⟩
        | some p2 =>
          dsimp only
          cases hcr : crossFn k (getC s2 p1) (getC s2 p2) cfg.crossoverCount with
          | none => exact ⟨rfl, hmono1.trans hmono2, hgf12,
              fun _ hv => hw2 (lt_of_lt_of_le hv hmono1)⟩
          | some chrom =>
            refine ⟨rfl, ?_, ?_, ?_⟩
            · rw [List.length_append]
              exact le_trans (hmono1.trans hmono2) (by omega)
            · intro q hq
              rw [getC_append_left _ _ q (lt_of_lt_of_le hq (hmono1.trans hmono2))]
              exact hgf12 q hq
            · intro _ hv
              rw [getC_append_left _ _ _
                (lt_of_lt_of_le hv (hmono1.trans hmono2))]
              exact hw2 (lt_of_lt_of_le hv hmono1)
    · -- no-crossover path
      cases res1 with
      | none => exact ⟨rfl, hmono1, hgf1, fun _ hv => hw1 hv⟩
      | some p1 =>
        dsimp only
        refine ⟨rfl, ?_, ?_, ?_⟩
        · rw [List.length_append]
          exact le_trans hmono1 (by omega)
        · intro q hq
          rw [getC_append_left _ _ q (lt_of_lt_of_le hq hmono1)]
          exact hgf1 q hq
        · intro _ hv
          rw [getC_append_left _ _ _ (lt_of_lt_of_le hv hmono1)]
          exact hw1 hv

theorem breedChildren_rank_inv (cfg : EvolverConfiguration) (ro : Nat → Nat)
    (crossFn : CrossFn) (mutFn : MutFn) (cD : Nat → ℚ) (mD : Nat → Nat → ℚ) :
    ∀ (n k : Nat) (s : Store) (pop : Population) (acc : List Ptr) (s1 : Store)
      (pop1 : Population) (out : List Ptr),
      breedChildren cfg (rankSel ro) crossFn mutFn cD mD n k s pop acc
        = some (s1, pop1, out) →
      pop1 = pop ∧ s.length ≤ s1.length ∧
      (∀ q, q < s.length →
        (getC s1 q).genes = (getC s q).genes ∧
          (getC s1 q).fitness = (getC s q).fitness) ∧
      (∃ tl, out = acc ++ tl) ∧
      (pop ≠ [] → pop.getD (pop.length - 1) 0 < s.length →
        (1 ≤ n ∨ (getC s (pop.getD (pop.length - 1) 0)).weight = pop.length) →
        (getC s1 (pop.getD (pop.length - 1) 0)).weight = pop.length) := by
  intro n
  induction n with
  | zero =>
    intro k s pop acc s1 pop1 out h
    rw [breedChildren] at h
    simp only [Option.some.injEq, Prod.mk.injEq] at h
    obtain ⟨hs, hp, ho⟩ := h
    subst hs; subst hp; subst ho
    refine ⟨rfl, le_rfl, fun q _ => ⟨rfl, rfl⟩, ⟨[], (List.append_nil acc).symm⟩, ?_⟩
    intro _ _ hd
    rcases hd with hd | hd
    · omega
    · exact hd
  | succ m ih =>
    intro k s pop acc s1 pop1 out h
    rw [breedChildren] at h
    rcases hb : breedChild cfg (rankSel ro) crossFn mutFn (cD k) (mD k) k s pop
      with ⟨sc, popc, res⟩
    rw [hb] at h
    have hf := breedChild_rank_facts cfg ro crossFn mutFn (cD k) (mD k) k s pop
    rw [hb] at hf
    dsimp only at hf
    obtain ⟨hpop', hmono, hgf, hw⟩ := hf
    subst popc
    cases res with
    | none => exact absurd h (by simp)
    | some p =>
      dsimp only at h
      obtain ⟨hp1, hmono2, hgf2, ⟨tl, hout⟩, hw2⟩ :=
        ih (k + 1) sc pop (acc ++ [p]) s1 pop1 out h
      refine ⟨hp1, hmono.trans hmono2, ?_,
        ⟨[p] ++ tl, by rw [hout, List.append_assoc]⟩, ?_⟩
      · intro q hq
        have hq2 := hgf2 q (lt_of_lt_of_le hq hmono)
        have hq1 := hgf q hq
        exact ⟨hq2.1.trans hq1.1, hq2.2.trans hq1.2⟩
      · intro hne hv _
        exact hw2 hne (lt_of_lt_of_le hv hmono) (Or.inr (hw hne hv))

/-! ### Roulette selection under breeding (claim C10) -/

theorem SumWeights_perm (s : Store) {pop1 pop2 : Population} (h : pop1.Perm pop2) :
    SumWeights s pop1 = SumWeights s pop2 :=
  (h.map _).sum_eq

theorem SumWeights_congr {s1 s2 : Store} (pop : Population)
    (h : ∀ q ∈ pop, (getC s1 q).weight = (getC s2 q).weight) :
    SumWeights s1 pop = SumWeights s2 pop :=
  congrArg List.sum (List.map_congr_left h)

theorem sum_map_div (l : List ℚ) (c : ℚ) : (l.map (· / c)).sum = l.sum / c := by
  induction l with
  | nil => simp
  | cons x xs ih => rw [List.map_cons, List.sum_cons, List.sum_cons, ih, add_div]

theorem SumWeights_of_normalized (s s_cur : Store) (pop : Population) (t : ℚ)
    (h : ∀ q ∈ pop, (getC s_cur q).weight = (getC s q).weight / t) :
    SumWeights s_cur pop = SumWeights s pop / t := by
  rw [SumWeights, SumWeights, ← sum_map_div, List.map_map]
  exact congrArg List.sum (List.map_congr_left fun q hq => h q hq)

theorem SumWeights_pos (s : Store) (pop : Population)
    (hpos : ∀ q ∈ pop, 0 < (getC s q).weight) (hne : pop ≠ []) :
    0 < SumWeights s pop := by
  apply List.sum_pos
  · intro x hx
    obtain ⟨p, hp, rfl⟩ := List.mem_map.mp hx
    exact hpos p hp
  · simpa using hne

theorem CountNegativeWeights_eq_zero (s : Store) (pop : Population)
    (h : ∀ p ∈ pop, ¬((getC s p).weight < 0)) :
    CountNegativeWeights s pop = 0 := by
  rw [CountNegativeWeights, List.length_eq_zero]
  rw [List.filter_eq_nil_iff]
  intro p hp
  simpa using h p hp

theorem length_divFold (t : ℚ) (pop : Population) :
    ∀ s : Store,
      (pop.foldl (fun st p => setWeight st p ((getC st p).weight / t)) s).length
        = s.length := by
  induction pop with
  | nil => intro s; rfl
  | cons p rest ih =>
    intro s
    rw [List.foldl_cons, ih, length_setWeight]

theorem getC_divFold_not_mem (t : ℚ) (pop : Population) :
    ∀ (s : Store) (q : Ptr), q ∉ pop →
      getC (pop.foldl (fun st p => setWeight st p ((getC st p).weight / t)) s) q
        = getC s q := by
  induction pop with
  | nil => intro s q _; rfl
  | cons p rest ih =>
    intro s q hq
    simp only [List.mem_cons, not_or] at hq
    rw [List.foldl_cons, ih _ _ hq.2, getC_setWeight_ne _ _ _ _ (Ne.symm hq.1)]

theorem getC_divFold_mem (t : ℚ) (pop : Population) :
    ∀ (s : Store) (q : Ptr), pop.Nodup → q ∈ pop → q < s.length →
      (getC (pop.foldl (fun st p => setWeight st p ((getC st p).weight / t)) s)
        q).weight = (getC s q).weight / t := by
  induction pop with
  | nil => intro s q _ hq _; exact absurd hq (by simp)
  | cons p rest ih =>
    intro s q hnd hq hql
    rw [List.foldl_cons]
    by_cases hmem : q ∈ rest
    · have hqp : q ≠ p := fun h => (List.nodup_cons.mp hnd).1 (h ▸ hmem)
      rw [ih _ q (List.nodup_cons.mp hnd).2 hmem (by rw [length_setWeight]; exact hql),
        getC_setWeight_ne s p q _ (Ne.symm hqp)]
    · have hqp : q = p := by
        rcases List.mem_cons.mp hq with h | h
        · exact h
        · exact absurd h hmem
      subst hqp
      rw [getC_divFold_not_mem t rest _ q hmem, getC_setWeight_self s q _ hql]

/-- One invocation of roulette selection divides every chromosome's weight by
the population's current weight total (in place, through the pointers); with
all weights positive the negative-weight shift branch is skipped, the store
length is unchanged, and the population slice is reordered (sorted descending
by fitness). -/
theorem RouletteFunction_step (rf : ℚ) (s_cur : Store) (pop_cur : Population)
    (hnd : pop_cur.Nodup) (hv : ∀ q ∈ pop_cur, q < s_cur.length)
    (hpos : ∀ q ∈ pop_cur, 0 < (getC s_cur q).weight) :
    (RouletteFunction rf s_cur pop_cur).2.1 = sortByFitnessDesc s_cur pop_cur ∧
    (RouletteFunction rf s_cur pop_cur).1.length = s_cur.length ∧
    ∀ q ∈ pop_cur, (getC (RouletteFunction rf s_cur pop_cur).1 q).weight
      = (getC s_cur q).weight / SumWeights s_cur pop_cur := by
  have hpermD : (sortByFitnessDesc s_cur pop_cur).Perm pop_cur := by
    rw [sortByFitnessDesc]
    exact List.perm_insertionSort _ _
  have hndD : (sortByFitnessDesc s_cur pop_cur).Nodup := hpermD.nodup_iff.mpr hnd
  have hvD : ∀ q ∈ sortByFitnessDesc s_cur pop_cur, q < s_cur.length :=
    fun q hq => hv q (hpermD.subset hq)
  have hposD : ∀ q ∈ sortByFitnessDesc s_cur pop_cur, 0 < (getC s_cur q).weight :=
    fun q hq => hpos q (hpermD.subset hq)
  have htotD : SumWeights s_cur (sortByFitnessDesc s_cur pop_cur)
      = SumWeights s_cur pop_cur := SumWeights_perm s_cur hpermD
  have hnorm_mem : ∀ q ∈ sortByFitnessDesc s_cur pop_cur,
      (getC (rouletteNormalize s_cur (sortByFitnessDesc s_cur pop_cur)) q).weight
        = (getC s_cur q).weight
          / SumWeights s_cur (sortByFitnessDesc s_cur pop_cur) :=
    fun q hq => getC_divFold_mem _ _ s_cur q hndD hq (hvD q hq)
  have hlen_norm :
      (rouletteNormalize s_cur (sortByFitnessDesc s_cur pop_cur)).length
        = s_cur.length := length_divFold _ _ s_cur
  have hprep : rouletteWeightPrep s_cur (sortByFitnessDesc s_cur pop_cur)
      = rouletteNormalize s_cur (sortByFitnessDesc s_cur pop_cur) := by
    rw [rouletteWeightPrep, rouletteShift, CountNegativeWeights_eq_zero]
    · simp
    · intro p hp
      rw [hnorm_mem p hp]
      have hT : 0 < SumWeights s_cur (sortByFitnessDesc s_cur pop_cur) :=
        SumWeights_pos _ _ hposD (List.ne_nil_of_mem hp)
      have hquot := div_pos (hposD p hp) hT
      linarith
  have h1 : (RouletteFunction rf s_cur pop_cur).1
      = rouletteNormalize s_cur (sortByFitnessDesc s_cur pop_cur) := by
    simp only [RouletteFunction]
    split <;> exact hprep
  have h2 : (RouletteFunction rf s_cur pop_cur).2.1
      = sortByFitnessDesc s_cur pop_cur := by
    simp only [RouletteFunction]
    split <;> rfl
  refine ⟨h2, by rw [h1, hlen_norm], ?_⟩
  intro q hq
  rw [h1, hnorm_mem q (hpermD.mem_iff.mpr hq), htotD]

/-- Advancing the breeding-time weight invariant through one roulette
invocation: starting from the original weights, or from weights already
normalized by the original total, the invocation leaves every chromosome of
the original population with weight `original / original total`. -/
theorem RouletteFunction_advance (rf' : ℚ) (s : Store) (pop : Population)
    (hnd : pop.Nodup) (hv : ∀ q ∈ pop, q < s.length)
    (hpos : ∀ q ∈ pop, 0 < (getC s q).weight) (hne : pop ≠ [])
    (s_cur : Store) (pop_cur : Population) (hperm : pop_cur.Perm pop)
    (hmono : s.length ≤ s_cur.length)
    (hQ : (∀ q ∈ pop, (getC s_cur q).weight = (getC s q).weight) ∨
      (∀ q ∈ pop, (getC s_cur q).weight = (getC s q).weight / SumWeights s pop)) :
    (RouletteFunction rf' s_cur pop_cur).2.1.Perm pop ∧
    (RouletteFunction rf' s_cur pop_cur).1.length = s_cur.length ∧
    ∀ q ∈ pop, (getC (RouletteFunction rf' s_cur pop_cur).1 q).weight
      = (getC s q).weight / SumWeights s pop := by
  have hT : 0 < SumWeights s pop := SumWeights_pos s pop hpos hne
  have hnd_cur : pop_cur.Nodup := hperm.nodup_iff.mpr hnd
  have hv_cur : ∀ q ∈ pop_cur, q < s_cur.length :=
    fun q hq => lt_of_lt_of_le (hv q (hperm.subset hq)) hmono
  have hpos_cur : ∀ q ∈ pop_cur, 0 < (getC s_cur q).weight := by
    intro q hq
    have hqp := hperm.subset hq
    rcases hQ with h | h
    · rw [h q hqp]; exact hpos q hqp
    · rw [h q hqp]; exact div_pos (hpos q hqp) hT
  obtain ⟨hpop, hlen, hw⟩ :=
    RouletteFunction_step rf' s_cur pop_cur hnd_cur hv_cur hpos_cur
  have hpermOut : (RouletteFunction rf' s_cur pop_cur).2.1.Perm pop := by
    rw [hpop, sortByFitnessDesc]
    exact (List.perm_insertionSort _ _).trans hperm
  have hS : SumWeights s_cur pop_cur = SumWeights s_cur pop :=
    SumWeights_perm s_cur hperm
  refine ⟨hpermOut, hlen, ?_⟩
  intro q hq
  rw [hw q (hperm.mem_iff.mpr hq), hS]
  rcases hQ with h | h
  · rw [SumWeights_congr pop h, h q hq]
  · rw [SumWeights_of_normalized s s_cur pop _ h, div_self (ne_of_gt hT),
      h q hq, div_one]

theorem breedChild_roulette_facts (cfg : EvolverConfiguration) (rf : Nat → ℚ)
    (crossFn : CrossFn) (mutFn : MutFn) (cd : ℚ) (md : Nat → ℚ) (k : Nat)
    (s : Store) (pop : Population) (hnd : pop.Nodup)
    (hv : ∀ q ∈ pop, q < s.length) (hpos : ∀ q ∈ pop, 0 < (getC s q).weight)
    (hne : pop ≠ []) (s_cur : Store) (pop_cur : Population)
    (hperm : pop_cur.Perm pop) (hmono : s.length ≤ s_cur.length)
    (hQ : (∀ q ∈ pop, (getC s_cur q).weight = (getC s q).weight) ∨
      (∀ q ∈ pop, (getC s_cur q).weight = (getC s q).weight / SumWeights s pop)) :
    (breedChild cfg (rouletteSel rf) crossFn mutFn cd md k s_cur pop_cur).2.1.Perm
      pop ∧
    s_cur.length
      ≤ (breedChild cfg (rouletteSel rf) crossFn mutFn cd md k s_cur pop_cur).1.length ∧
    ∀ q ∈ pop,
      (getC (breedChild cfg (rouletteSel rf) crossFn mutFn cd md k s_cur
        pop_cur).1 q).weight = (getC s q).weight / SumWeights s pop := by
  cases pop_cur with
  | nil =>
    exfalso
    have hl := hperm.length_eq
    simp only [List.length_nil] at hl
    exact hne (List.eq_nil_of_length_eq_zero hl.symm)
  | cons p0 rest =>
    simp only [breedChild, rouletteSel]
    rcases hR1 : RouletteFunction (rf (2 * k)) s_cur (p0 :: rest)
      with ⟨sA, popA, resA⟩
    have hadv1 := RouletteFunction_advance (rf (2 * k)) s pop hnd hv hpos hne
      s_cur (p0 :: rest) hperm hmono hQ
    rw [hR1] at hadv1
    dsimp only at hadv1
    obtain ⟨hpermA, hlenA, hwA⟩ := hadv1
    split
    · -- crossover path
      cases resA with
      | none => exact ⟨hpermA, le_of_eq hlenA.symm, hwA⟩
      | some p1 =>
        dsimp only
        rcases hR2 : RouletteFunction (rf (2 * k + 1)) sA popA
          with ⟨sB, popB, resB⟩
        have hadv2 := RouletteFunction_advance (rf (2 * k + 1)) s pop hnd hv
          hpos hne sA popA hpermA (hmono.trans (le_of_eq hlenA.symm))
          (Or.inr hwA)
        rw [hR2] at hadv2
        dsimp only at hadv2
        obtain ⟨hpermB, hlenB, hwB⟩ := hadv2
        cases resB with
        | none => exact ⟨hpermB, le_of_eq (hlenB.trans hlenA).symm, hwB⟩
        | some p2 =>
          dsimp only
          cases hcr : crossFn k (getC sB p1) (getC sB p2) cfg.crossoverCount with
          | none => exact ⟨hpermB, le_of_eq (hlenB.trans hlenA).symm, hwB⟩
          | some chrom =>
            refine ⟨hpermB, ?_, ?_⟩
            · rw [List.length_append]
              have hBA := hlenB.trans hlenA
              simp only [List.length_singleton]
              omega
            · intro q hq
              have hvalid : q < sB.length := by
                have hBA := hlenB.trans hlenA
                have hq' := hv q hq
                exact lt_of_lt_of_le hq' (hmono.trans (le_of_eq hBA.symm))
              rw [getC_append_left _ _ q hvalid]
              exact hwB q hq
    · -- no-crossover path
      cases resA with
      | none => exact ⟨hpermA, le_of_eq hlenA.symm, hwA⟩
      | some p1 =>
        dsimp only
        refine ⟨hpermA, ?_, ?_⟩
        · rw [List.length_append]
          simp only [List.length_singleton]
          omega
        · intro q hq
          have hvalid : q < sA.length := by
            have hq' := hv q hq
            exact lt_of_lt_of_le hq' (hmono.trans (le_of_eq hlenA.symm))
          rw [getC_append_left _ _ q hvalid]
          exact hwA q hq

/-- The new-population accumulator of the child-breeding loop only grows:
whatever the selection method, the elitism prefix stays in place. -/
theorem breedChildren_acc_prefix (cfg : EvolverConfiguration) (selFn : SelFn)
    (crossFn : CrossFn) (mutFn : MutFn) (cD : Nat → ℚ) (mD : Nat → Nat → ℚ) :
    ∀ (n k : Nat) (s : Store) (pop : Population) (acc : List Ptr) (s1 : Store)
      (pop1 : Population) (out : List Ptr),
      breedChildren cfg selFn crossFn mutFn cD mD n k s pop acc
        = some (s1, pop1, out) →
      ∃ tl, out = acc ++ tl := by
  intro n
  induction n with
  | zero =>
    intro k s pop acc s1 pop1 out h
    rw [breedChildren] at h
    simp only [Option.some.injEq, Prod.mk.injEq] at h
    exact ⟨[], by rw [← h.2.2, List.append_nil]⟩
  | succ m ih =>
    intro k s pop acc s1 pop1 out h
    rw [breedChildren] at h
    rcases hb : breedChild cfg selFn crossFn mutFn (cD k) (mD k) k s pop
      with ⟨sc, popc, res⟩
    rw [hb] at h
    cases res with
    | none => exact absurd h (by simp)
    | some p =>
      dsimp only at h
      obtain ⟨tl, htl⟩ := ih (k + 1) sc popc (acc ++ [p]) s1 pop1 out h
      exact ⟨[p] ++ tl, by rw [htl, List.append_assoc]⟩

theorem breedChildren_roulette_inv (cfg : EvolverConfiguration) (rf : Nat → ℚ)
    (crossFn : CrossFn) (mutFn : MutFn) (cD : Nat → ℚ) (mD : Nat → Nat → ℚ)
    (s : Store) (pop : Population) (hnd : pop.Nodup)
    (hv : ∀ q ∈ pop, q < s.length) (hpos : ∀ q ∈ pop, 0 < (getC s q).weight)
    (hne : pop ≠ []) :
    ∀ (n k : Nat) (s_cur : Store) (pop_cur : Population) (acc : List Ptr)
      (s1 : Store) (pop1 : Population) (out : List Ptr),
      pop_cur.Perm pop → s.length ≤ s_cur.length →
      ((∀ q ∈ pop, (getC s_cur q).weight = (getC s q).weight) ∨
        (∀ q ∈ pop, (getC s_cur q).weight = (getC s q).weight / SumWeights s pop)) →
      breedChildren cfg (rouletteSel rf) crossFn mutFn cD mD n k s_cur pop_cur acc
        = some (s1, pop1, out) →
      (1 ≤ n ∨
        (∀ q ∈ pop, (getC s_cur q).weight = (getC s q).weight / SumWeights s pop)) →
      ∀ q ∈ pop, (getC s1 q).weight = (getC s q).weight / SumWeights s pop := by
  intro n
  induction n with
  | zero =>
    intro k s_cur pop_cur acc s1 pop1 out _ _ _ h hd
    rw [breedChildren] at h
    simp only [Option.some.injEq, Prod.mk.injEq] at h
    rcases hd with hd | hd
    · omega
    · intro q hq
      rw [← h.1]
      exact hd q hq
  | succ m ih =>
    intro k s_cur pop_cur acc s1 pop1 out hperm hmono hQ h _
    rw [breedChildren] at h
    rcases hb : breedChild cfg (rouletteSel rf) crossFn mutFn (cD k) (mD k) k
      s_cur pop_cur with ⟨sc, popc, res⟩
    rw [hb] at h
    have hf := breedChild_roulette_facts cfg rf crossFn mutFn (cD k) (mD k) k
      s pop hnd hv hpos hne s_cur pop_cur hperm hmono hQ
    rw [hb] at hf
    dsimp only at hf
    obtain ⟨hpermc, hmonoc, hQc⟩ := hf
    cases res with
    | none => exact absurd h (by simp)
    | some p =>
      dsimp only at h
      exact ih (k + 1) sc popc (acc ++ [p]) s1 pop1 out hpermc
        (hmono.trans hmonoc) (Or.inr hQc) h (Or.inr hQc)

/-! ### Claim C10 -/

/-- **C10**: the elite entries of the new population are the very pointers
`population[len-1-i]` of the old population (shared by reference), and the
weight reassignments that rank and roulette selection perform while breeding
the remaining children of the same generation write through those shared
pointers.  At the end of the generation step the last old chromosome —
already placed in the new population — carries, under rank selection, the
rank-assigned weight `len(population)`, whatever its weight was before; and,
under roulette selection (for distinct valid pointers with positive weights),
the roulette-normalized weight `original weight / original weight total`. -/
theorem C10_elites_shared_and_reweighted (cfg : EvolverConfiguration)
    (ro : Nat → Nat) (rf : Nat → ℚ) (crossFn : CrossFn) (mutFn : MutFn)
    (cD : Nat → ℚ) (mD : Nat → Nat → ℚ) (s : Store) (pop : Population)
    (h1 : 1 ≤ cfg.elitism) (h2 : cfg.elitism < pop.length)
    (hv : ∀ p ∈ pop, p < s.length) :
    (∀ (s' : Store) (newPop : Population),
      breedSingleGeneration cfg (rankSel ro) crossFn mutFn cD mD s pop
        = some (s', newPop) →
      newPop.take cfg.elitism
        = (List.range cfg.elitism).map (fun i => pop.getD (pop.length - i - 1) 0) ∧
      (getC s' (pop.getD (pop.length - 1) 0)).weight = pop.length) ∧
    (∀ (s' : Store) (newPop : Population), pop.Nodup →
      (∀ q ∈ pop, 0 < (getC s q).weight) →
      breedSingleGeneration cfg (rouletteSel rf) crossFn mutFn cD mD s pop
        = some (s', newPop) →
      newPop.take cfg.elitism
        = (List.range cfg.elitism).map (fun i => pop.getD (pop.length - i - 1) 0) ∧
      (getC s' (pop.getD (pop.length - 1) 0)).weight
        = (getC s (pop.getD (pop.length - 1) 0)).weight / SumWeights s pop) := by
  have hne : pop ≠ [] := by
    apply List.length_pos.mp
    omega
  have hidx : pop.length - 1 < pop.length := by omega
  constructor
  · -- rank selection
    intro s' newPop hb
    rw [breedSingleGeneration, applyElitism, if_pos (le_of_lt h2)] at hb
    dsimp only at hb
    set elite : List Ptr :=
      (List.range cfg.elitism).map (fun i => pop.getD (pop.length - i - 1) 0)
      with hElite
    have hlenE : elite.length = cfg.elitism := by
      rw [hElite, List.length_map, List.length_range]
    rcases hbc : breedChildren cfg (rankSel ro) crossFn mutFn cD mD
        (pop.length - elite.length) elite.length s pop elite
      with _ | ⟨ts, tp, tout⟩
    · rw [hbc] at hb
      exact absurd hb (by simp)
    · rw [hbc] at hb
      dsimp only at hb
      simp only [Option.some.injEq, Prod.mk.injEq] at hb
      obtain ⟨hts, htout⟩ := hb
      subst hts; subst htout
      obtain ⟨_, _, _, ⟨tl, hout⟩, hwfin⟩ :=
        breedChildren_rank_inv cfg ro crossFn mutFn cD mD
          (pop.length - elite.length) elite.length s pop elite ts tp tout hbc
      constructor
      · rw [hout, ← hlenE, List.take_left]
      · exact hwfin hne (hv _ (getD_mem pop (pop.length - 1) hidx))
          (Or.inl (by omega))
  · -- roulette selection
    intro s' newPop hnd hpos hb
    rw [breedSingleGeneration, applyElitism, if_pos (le_of_lt h2)] at hb
    dsimp only at hb
    set elite : List Ptr :=
      (List.range cfg.elitism).map (fun i => pop.getD (pop.length - i - 1) 0)
      with hElite
    have hlenE : elite.length = cfg.elitism := by
      rw [hElite, List.length_map, List.length_range]
    rcases hbc : breedChildren cfg (rouletteSel rf) crossFn mutFn cD mD
        (pop.length - elite.length) elite.length s pop elite
      with _ | ⟨ts, tp, tout⟩
    · rw [hbc] at hb
      exact absurd hb (by simp)
    · rw [hbc] at hb
      dsimp only at hb
      simp only [Option.some.injEq, Prod.mk.injEq] at hb
      obtain ⟨hts, htout⟩ := hb
      subst hts; subst htout
      obtain ⟨tl, hout⟩ := breedChildren_acc_prefix cfg (rouletteSel rf)
        crossFn mutFn cD mD (pop.length - elite.length) elite.length s pop
        elite ts tp tout hbc
      constructor
      · rw [hout, ← hlenE, List.take_left]
      · exact breedChildren_roulette_inv cfg rf crossFn mutFn cD mD s pop hnd
          hv hpos hne (pop.length - elite.length) elite.length s pop elite
          ts tp tout (List.Perm.refl pop) le_rfl (Or.inl fun q _ => rfl) hbc
          (Or.inl (by rw [hlenE]; omega)) _
          (getD_mem pop (pop.length - 1) hidx)

/-- Witness for C10 at the concrete two-chromosome instance (weights 5
and 7): under rank selection the shared elite entry ends the generation with
weight `2` (the rank weight, no longer the original `7`); under roulette
selection it ends with weight `7/12` (the original `7` divided by the weight
total `12`). -/
theorem C10_witness :
    (([1, 2] : Population).take (⟨1, 0, 0, 0⟩ : EvolverConfiguration).elitism
        = (List.range (⟨1, 0, 0, 0⟩ : EvolverConfiguration).elitism).map
            (fun i => ([0, 1] : Population).getD
              (([0, 1] : Population).length - i - 1) 0) ∧
      (getC [⟨[5], 5, 1⟩, ⟨[7], 7, 2⟩, ⟨[5], 5, 1⟩]
          (([0, 1] : Population).getD (([0, 1] : Population).length - 1) 0)).weight
        = ([0, 1] : Population).length) ∧
    (([1, 2] : Population).take (⟨1, 0, 0, 0⟩ : EvolverConfiguration).elitism
        = (List.range (⟨1, 0, 0, 0⟩ : EvolverConfiguration).elitism).map
            (fun i => ([0, 1] : Population).getD
              (([0, 1] : Population).length - i - 1) 0) ∧
      (getC [⟨[5], 5, 5/12⟩, ⟨[7], 7, 7/12⟩, ⟨[7], 7, 7/12⟩]
          (([0, 1] : Population).getD (([0, 1] : Population).length - 1) 0)).weight
        = (getC [⟨[5], 5, 5⟩, ⟨[7], 7, 7⟩]
            (([0, 1] : Population).getD (([0, 1] : Population).length - 1) 0)).weight
          / SumWeights [⟨[5], 5, 5⟩, ⟨[7], 7, 7⟩] [0, 1]) := by
  have h := C10_elites_shared_and_reweighted ⟨1, 0, 0, 0⟩ (fun _ => 0)
    (fun _ => 0) (fun _ _ _ _ => none) (fun _ _ => 0) (fun _ => 1)
    (fun _ _ => 1) [⟨[5], 5, 5⟩, ⟨[7], 7, 7⟩] [0, 1] (by decide) (by decide)
    (by decide)
  refine ⟨h.1 [⟨[5], 5, 1⟩, ⟨[7], 7, 2⟩, ⟨[5], 5, 1⟩] [1, 2] ?_,
    h.2 [⟨[5], 5, 5/12⟩, ⟨[7], 7, 7/12⟩, ⟨[7], 7, 7/12⟩] [1, 2] (by decide)
      (by intro q hq
          simp only [List.mem_cons, List.not_mem_nil, or_false] at hq
          rcases hq with rfl | rfl <;> norm_num [getC]) ?_⟩
  · norm_num [breedSingleGeneration, applyElitism, breedChildren, breedChild,
      mutateGenes, copyInto, rankSel, RankFunction, rankAssign, rankAssignFrom,
      setWeight, getC, SumWeights, selectScan, Int.toNat]
    decide
  · norm_num [breedSingleGeneration, applyElitism, breedChildren, breedChild,
      mutateGenes, copyInto, rouletteSel, RouletteFunction, sortByFitnessDesc,
      rouletteWeightPrep, rouletteNormalize, rouletteShift,
      CountNegativeWeights, MinWeight, ShiftWeights, maxFloat64, setWeight,
      getC, SumWeights, selectScan, List.insertionSort, List.orderedInsert]
    decide

/-! ### Claim C2 -/

/-- Counterexample to **C2 as stated**: population `[⟨[5],5,5⟩, ⟨[7],7,7⟩]`
(ascending by fitness), elitism 1, crossover and mutation rates 0, rank
selection.  The elite is the chromosome with fitness 7 and weight 7; after
one `breedSingleGeneration` step the elite entry of the new population has
weight 2 — rank selection reassigned it through the shared reference — so
its weight was **not** preserved unchanged by the generation step. -/
theorem C2_counterexample :
    (breedSingleGeneration ⟨1, 0, 0, 0⟩ (rankSel fun _ => 0)
        (fun _ _ _ _ => none) (fun _ _ => 0) (fun _ => 1) (fun _ _ => 1)
        [⟨[5], 5, 5⟩, ⟨[7], 7, 7⟩] [0, 1]).map (fun st => (getC st.1 1).weight)
      = some 2 ∧
    (getC [⟨[5], 5, 5⟩, ⟨[7], 7, 7⟩] 1).weight = 7 := by
  constructor
  · norm_num [breedSingleGeneration, applyElitism, breedChildren, breedChild,
      mutateGenes, copyInto, rankSel, RankFunction, rankAssign, rankAssignFrom,
      setWeight, getC, SumWeights, selectScan, Int.toNat]
  · norm_num [getC]

/-- **C2 (amended)**: a generation step places the last `k = elitism`
chromosomes of the (ascending-sorted) population into the new population by
reference, in reverse order, with their gene vectors and fitness preserved
unchanged; their weight, however, is engine-internal scratch state that the
selection method may reassign through the shared references while the
remaining children are bred (see C10), so it is not preserved in general. -/
theorem C2_elitism_preserves_genes_fitness (cfg : EvolverConfiguration)
    (ro : Nat → Nat) (crossFn : CrossFn) (mutFn : MutFn) (cD : Nat → ℚ)
    (mD : Nat → Nat → ℚ) (s : Store) (pop : Population) (s' : Store)
    (newPop : Population) (hk : cfg.elitism ≤ pop.length)
    (hv : ∀ p ∈ pop, p < s.length)
    (hb : breedSingleGeneration cfg (rankSel ro) crossFn mutFn cD mD s pop
      = some (s', newPop)) :
    newPop.take cfg.elitism
      = (List.range cfg.elitism).map (fun i => pop.getD (pop.length - i - 1) 0) ∧
    ∀ i, i < cfg.elitism →
      (getC s' (pop.getD (pop.length - i - 1) 0)).genes
          = (getC s (pop.getD (pop.length - i - 1) 0)).genes ∧
        (getC s' (pop.getD (pop.length - i - 1) 0)).fitness
          = (getC s (pop.getD (pop.length - i - 1) 0)).fitness := by
  rw [breedSingleGeneration, applyElitism, if_pos hk] at hb
  dsimp only at hb
  set elite : List Ptr :=
    (List.range cfg.elitism).map (fun i => pop.getD (pop.length - i - 1) 0)
    with hElite
  have hlenE : elite.length = cfg.elitism := by
    rw [hElite, List.length_map, List.length_range]
  rcases hbc : breedChildren cfg (rankSel ro) crossFn mutFn cD mD
      (pop.length - elite.length) elite.length s pop elite
    with _ | ⟨ts, tp, tout⟩
  · rw [hbc] at hb
    exact absurd hb (by simp)
  · rw [hbc] at hb
    dsimp only at hb
    simp only [Option.some.injEq, Prod.mk.injEq] at hb
    obtain ⟨hts, htout⟩ := hb
    subst hts; subst htout
    obtain ⟨_, _, hgf, ⟨tl, hout⟩, _⟩ :=
      breedChildren_rank_inv cfg ro crossFn mutFn cD mD
        (pop.length - elite.length) elite.length s pop elite ts tp tout hbc
    constructor
    · rw [hout, ← hlenE, List.take_left]
    · intro i hi
      have hidx : pop.length - i - 1 < pop.length := by omega
      exact hgf _ (hv _ (getD_mem pop (pop.length - i - 1) hidx))

/-- Witness for the amended C2 at the concrete two-chromosome instance: the
elite's genes `[7]` and fitness `7` are preserved by the generation step. -/
theorem C2_witness :
    ([1, 2] : Population).take (⟨1, 0, 0, 0⟩ : EvolverConfiguration).elitism
      = (List.range (⟨1, 0, 0, 0⟩ : EvolverConfiguration).elitism).map
          (fun i => ([0, 1] : Population).getD (([0, 1] : Population).length - i - 1) 0) ∧
    ∀ i, i < (⟨1, 0, 0, 0⟩ : EvolverConfiguration).elitism →
      (getC [⟨[5], 5, 1⟩, ⟨[7], 7, 2⟩, ⟨[5], 5, 1⟩]
          (([0, 1] : Population).getD (([0, 1] : Population).length - i - 1) 0)).genes
          = (getC [⟨[5], 5, 5⟩, ⟨[7], 7, 7⟩]
              (([0, 1] : Population).getD (([0, 1] : Population).length - i - 1) 0)).genes ∧
        (getC [⟨[5], 5, 1⟩, ⟨[7], 7, 2⟩, ⟨[5], 5, 1⟩]
            (([0, 1] : Population).getD (([0, 1] : Population).length - i - 1) 0)).fitness
          = (getC [⟨[5], 5, 5⟩, ⟨[7], 7, 7⟩]
              (([0, 1] : Population).getD (([0, 1] : Population).length - i - 1) 0)).fitness :=
  C2_elitism_preserves_genes_fitness ⟨1, 0, 0, 0⟩ (fun _ => 0)
    (fun _ _ _ _ => none) (fun _ _ => 0) (fun _ => 1) (fun _ _ => 1)
    [⟨[5], 5, 5⟩, ⟨[7], 7, 7⟩] [0, 1] [⟨[5], 5, 1⟩, ⟨[7], 7, 2⟩, ⟨[5], 5, 1⟩]
    [1, 2] (by decide) (by decide)
    (by norm_num [breedSingleGeneration, applyElitism, breedChildren, breedChild,
      mutateGenes, copyInto, rankSel, RankFunction, rankAssign, rankAssignFrom,
      setWeight, getC, SumWeights, selectScan, Int.toNat]
        decide)

end Genetics
